import Mathlib

/-!
# Block-pool allocator `my_allocator<T, BlockSize>` (src/header/my_allocator.h)

Shallow embedding of the allocator's pool state and of its operations
`reserve`, `get_allocated`, `set_allocated`, `get_pointer`, `get_position`,
`allocate` and `deallocate`.

Modelling conventions.
* `size_t` is 64 bits wide: every `size_t` operation of the source is reduced
  modulo `SIZE_MOD = 2 ^ 64` (`size_add`, `size_sub`, `size_mul`).  Theorems
  about requests that the pool can serve carry the side condition `Fits`, under
  which none of these operations wraps.
* A pointer is a byte address (`Nat`), `nullptr` is `0`.  Pointer arithmetic
  inside a block buffer is not reduced.
* The element type `T` only enters through `sizeof(T)`; the heap enters through
  the base address `heap k` that `std::make_unique` hands out for the `k`-th
  block of the pool.  Storage exhaustion (`std::bad_alloc`) is not modelled.
* `get_pointer` can throw `std::out_of_range`; the scan loop of `allocate` can
  fail to terminate once its counters wrap.  Both are explicit outcomes.
* Out-of-bounds indexing of `blocks` or of `allocated` and division by
  `BlockSize = 0` are undefined in the source; the model reads `false`, writes
  nothing and divides to `0` there.  The pool invariant `WF` excludes all three.
-/

namespace FourthLab

/-- Number of values of the 64-bit type `size_t`. -/
def SIZE_MOD : Nat := 2 ^ 64

/-- The value `size_type(-1)`. -/
def SIZE_MAX : Nat := SIZE_MOD - 1

/-- Addition in `size_t`. -/
def size_add (a b : Nat) : Nat := (a + b) % SIZE_MOD

/-- Subtraction in `size_t` (wraps below zero). -/
def size_sub (a b : Nat) : Nat := (a % SIZE_MOD + SIZE_MOD - b % SIZE_MOD) % SIZE_MOD

/-- Multiplication in `size_t`. -/
def size_mul (a b : Nat) : Nat := (a * b) % SIZE_MOD

/-- Template parameters and the heap the allocator runs against. -/
structure Config where
  /-- Template parameter `BlockSize`. -/
  BlockSize : Nat
  /-- The value of `sizeof(T)`. -/
  sizeofT : Nat
  /-- Base address returned by `std::make_unique<std::byte[]>` for the block
  that becomes `blocks[k]`. -/
  heap : Nat → Nat

/-- The struct `memory_block`: the base address of its byte buffer `data` and
its occupancy vector `allocated`. -/
structure memory_block where
  data : Nat
  allocated : List Bool
deriving DecidableEq

/-- Constructor `memory_block(size)` for the block stored at index `k`. -/
def memory_block.create (c : Config) (k size : Nat) : memory_block :=
  { data := c.heap k, allocated := List.replicate size false }

/-- Method `memory_block::get_element_ptr(index)`. -/
def memory_block.get_element_ptr (c : Config) (b : memory_block) (index : Nat) : Nat :=
  b.data + index * c.sizeofT

/-- Data members of `my_allocator`. -/
structure my_allocator where
  blocks : List memory_block
  total_size : Nat
  used_size : Nat
deriving DecidableEq

/-- The loop `for (i = 0; i < blocks_to_add; ++i) blocks.emplace_back(BlockSize)`. -/
def emplace_blocks (c : Config) : Nat → List memory_block → List memory_block
  | 0, blocks => blocks
  | k + 1, blocks =>
      emplace_blocks c k (blocks ++ [memory_block.create c blocks.length c.BlockSize])

/-- Method `reserve(new_size)`. -/
def reserve (c : Config) (s : my_allocator) (new_size : Nat) : my_allocator :=
  if new_size ≤ s.total_size then s
  else
    let elements_to_add := size_sub new_size s.total_size
    let blocks_to_add := size_sub (size_add elements_to_add c.BlockSize) 1 / c.BlockSize
    let blocks := emplace_blocks c blocks_to_add s.blocks
    { blocks := blocks
      total_size := size_mul blocks.length c.BlockSize
      used_size := s.used_size }

/-- Default constructor `my_allocator()`; the converting constructor has the
same body and ignores its argument. -/
def default_ctor (c : Config) : my_allocator :=
  reserve c { blocks := [], total_size := 0, used_size := 0 } c.BlockSize

/-- Method `get_allocated(pos)`. -/
def get_allocated (c : Config) (s : my_allocator) (pos : Nat) : Bool :=
  if pos ≥ s.total_size then false
  else
    match s.blocks[pos / c.BlockSize]? with
    | some b => b.allocated.getD (pos % c.BlockSize) false
    | none => false

/-- Method `set_allocated(pos, value)`. -/
def set_allocated (c : Config) (s : my_allocator) (pos : Nat) (value : Bool) : my_allocator :=
  if pos ≥ s.total_size then s
  else
    { s with
      blocks :=
        s.blocks.modify
          (fun b => { b with allocated := b.allocated.set (pos % c.BlockSize) value })
          (pos / c.BlockSize) }

/-- Method `get_pointer(pos)`; `none` stands for the thrown `std::out_of_range`. -/
def get_pointer (c : Config) (s : my_allocator) (pos : Nat) : Option Nat :=
  if pos ≥ s.total_size then none
  else
    match s.blocks[pos / c.BlockSize]? with
    | some b => some (b.get_element_ptr c (pos % c.BlockSize))
    | none => none

/-- The loop of `get_position` over the blocks from index `block_idx` on. -/
def get_position_from (c : Config) (raw_ptr : Nat) : List memory_block → Nat → Nat
  | [], _ => SIZE_MAX
  | b :: rest, block_idx =>
      let block_start := b.data
      let block_end := block_start + size_mul c.BlockSize c.sizeofT
      if block_start ≤ raw_ptr ∧ raw_ptr < block_end then
        let offset := raw_ptr - block_start
        if offset % c.sizeofT = 0 then
          size_add (size_mul block_idx c.BlockSize) (offset / c.sizeofT)
        else get_position_from c raw_ptr rest (block_idx + 1)
      else get_position_from c raw_ptr rest (block_idx + 1)

/-- Method `get_position(p)`; `SIZE_MAX` is the "not found" value. -/
def get_position (c : Config) (s : my_allocator) (p : Nat) : Nat :=
  get_position_from c p s.blocks 0

/-- The inner loop of the scan in `allocate`: the first `i` in `[i, i + k)` with
`get_allocated(start + i)`, or `none` when the loop runs to its end. -/
def scan_run (c : Config) (s : my_allocator) (start : Nat) : Nat → Nat → Option Nat
  | 0, _ => none
  | k + 1, i =>
      if get_allocated c s (size_add start i) then some i
      else scan_run c s start k (i + 1)

/-- Outcome of the outer scan loop of `allocate`. -/
inductive ScanResult where
  /-- A candidate start whose `n` slots are all free was reached. -/
  | found (start : Nat)
  /-- The loop condition `start <= total_size - n` became false. -/
  | not_found
  /-- The loop revisits a start it has already tried: it never ends. -/
  | diverges
deriving DecidableEq

/-- The outer loop `for (start = ..; start <= bound; ++start)` of `allocate`.
Every start tried lies in `[0, bound]` and the occupancy flags do not change
during the scan, so a run of more than `bound + 1` iterations repeats a start;
`allocate` gives the loop `bound + 2` units of fuel. -/
def scan (c : Config) (s : my_allocator) (n bound : Nat) : Nat → Nat → ScanResult
  | 0, _ => ScanResult.diverges
  | fuel + 1, start =>
      if start ≤ bound then
        match scan_run c s start n 0 with
        | none => ScanResult.found start
        | some i => scan c s n bound fuel (size_add (size_add start i) 1)
      else ScanResult.not_found

/-- The loops `for (i = 0; i < n; ++i) set_allocated(start + i, value)`, from
offset `i` for `k` more iterations. -/
def mark_run (c : Config) (value : Bool) (start : Nat) : Nat → Nat → my_allocator → my_allocator
  | 0, _, s => s
  | k + 1, i, s => mark_run c value start k (i + 1) (set_allocated c s (size_add start i) value)

/-- The argument `total_size + ((n + BlockSize - 1) / BlockSize) * BlockSize`
that `allocate` passes to `reserve`. -/
def grow_target (c : Config) (s : my_allocator) (n : Nat) : Nat :=
  size_add s.total_size
    (size_mul (size_sub (size_add n c.BlockSize) 1 / c.BlockSize) c.BlockSize)

/-- The part of `allocate(n)` (for `n != 0`) that precedes `return
get_pointer(start)`: growth, scan, marking and the update of `used_size`.
Returns the chosen `start` and the pool, or `none` when the scan never ends. -/
def allocate_start (c : Config) (s : my_allocator) (n : Nat) : Option (Nat × my_allocator) :=
  let s1 := if size_add s.used_size n > s.total_size then reserve c s (grow_target c s n) else s
  let bound := size_sub s1.total_size n
  match scan c s1 n bound (bound + 2) 0 with
  | ScanResult.found start =>
      let s2 := mark_run c true start n 0 s1
      some (start, { s2 with used_size := size_add s2.used_size n })
  | ScanResult.not_found =>
      let start := s1.total_size
      let s2 := reserve c s1 (grow_target c s1 n)
      let s3 := mark_run c true start n 0 s2
      some (start, { s3 with used_size := size_add s3.used_size n })
  | ScanResult.diverges => none

/-- Outcome of a call of `allocate`. -/
inductive AllocResult where
  /-- The call returned pointer `p` and left the pool in state `s`. -/
  | returned (p : Nat) (s : my_allocator)
  /-- `get_pointer` threw `std::out_of_range`; the pool is left in state `s`. -/
  | threw (s : my_allocator)
  /-- The call never returns. -/
  | diverges
deriving DecidableEq

/-- Method `allocate(n)`. -/
def allocate (c : Config) (s : my_allocator) (n : Nat) : AllocResult :=
  if n = 0 then AllocResult.returned 0 s
  else
    match allocate_start c s n with
    | some (start, s1) =>
        match get_pointer c s1 start with
        | some p => AllocResult.returned p s1
        | none => AllocResult.threw s1
    | none => AllocResult.diverges

/-- Method `deallocate(p, n)`. -/
def deallocate (c : Config) (s : my_allocator) (p n : Nat) : my_allocator :=
  if p = 0 ∨ n = 0 then s
  else
    let pos := get_position c s p
    if pos ≠ SIZE_MAX ∧ size_add pos n ≤ s.total_size then
      let s1 := mark_run c false pos n 0 s
      { s1 with used_size := size_sub s1.used_size n }
    else s

/-- Number of `true` occupancy flags across all blocks. -/
def count_true (s : my_allocator) : Nat :=
  (s.blocks.map (fun b => b.allocated.count true)).sum

/-- A concrete configuration: `BlockSize = 10`, `sizeof(T) = 4`, blocks placed
at addresses `4096, 8192, ...`. -/
def cfg10 : Config := { BlockSize := 10, sizeofT := 4, heap := fun k => 4096 * (k + 1) }

/-- Structural part of the pool invariant. -/
structure WF (c : Config) (s : my_allocator) : Prop where
  block_size_pos : 0 < c.BlockSize
  total_eq : s.total_size = s.blocks.length * c.BlockSize
  block_len : ∀ b ∈ s.blocks, b.allocated.length = c.BlockSize

/-- The blocks appended by `k` iterations of the loop of `reserve` to a pool
that holds `len` blocks. -/
def new_blocks (c : Config) (len k : Nat) : List memory_block :=
  (List.range k).map (fun j => memory_block.create c (len + j) c.BlockSize)

/-- All `n` slots of the run `[t, t + n)` read as free. -/
def FreeRun (c : Config) (s : my_allocator) (n t : Nat) : Prop :=
  ∀ q, t ≤ q → q < t + n → get_allocated c s q = false

/-- The pool invariant: structure plus `used_size` counting the `true` flags. -/
structure PoolInv (c : Config) (s : my_allocator) : Prop where
  wf : WF c s
  used_eq : s.used_size = count_true s

/-- The number of slots `ceil(n / BlockSize) * BlockSize` by which `allocate(n)` grows. -/
def growth (c : Config) (n : Nat) : Nat :=
  ((n + c.BlockSize - 1) / c.BlockSize) * c.BlockSize

/-- The sizes involved in `allocate(n)` on pool `s` stay below `2 ^ 64`. -/
def Fits (c : Config) (s : my_allocator) (n : Nat) : Prop :=
  s.total_size + n + 2 * c.BlockSize ≤ SIZE_MOD

/-- Every block of the pool sits at the address the heap gave it. -/
def HeapLayout (c : Config) (s : my_allocator) : Prop :=
  ∀ j b, s.blocks[j]? = some b → b.data = c.heap j

/-- What a successful search of `allocate(n)` does to the pool: `s` before,
`s2` after, `start` the first slot of the run. -/
structure AllocPost (c : Config) (s : my_allocator) (n start : Nat) (s2 : my_allocator) :
    Prop where
  wf : WF c s2
  used : s2.used_size = s.used_size + n
  count : count_true s2 = count_true s + n
  total_cases : s2.total_size = s.total_size ∨ s2.total_size = s.total_size + growth c n
  total_lt : s2.total_size + c.BlockSize < SIZE_MOD
  in_range : start + n ≤ s2.total_size
  was_free : FreeRun c s n start
  flags : ∀ q, get_allocated c s2 q
      = if start ≤ q ∧ q < start + n then true else get_allocated c s q
  layout : HeapLayout c s → HeapLayout c s2

/-- Assumptions on the element size and on the heap: `sizeof(T)` is positive,
a block buffer has fewer than `2 ^ 64` bytes, no buffer starts at the null
address and distinct buffers do not overlap. -/
structure ConfigOk (c : Config) : Prop where
  sizeof_pos : 0 < c.sizeofT
  bytes_fit : c.BlockSize * c.sizeofT < SIZE_MOD
  heap_nonnull : ∀ k, 0 < c.heap k
  heap_disjoint : ∀ i j, i ≠ j →
    c.heap i + c.BlockSize * c.sizeofT ≤ c.heap j
      ∨ c.heap j + c.BlockSize * c.sizeofT ≤ c.heap i

/-- A sequence of calls `allocate(n)` for the sizes `ns` (each `n > 0`), with
no `deallocate` in between: the runs `(start, n)` handed out, in call order,
and the final pool; `none` when a call does not return a pointer. -/
def alloc_runs (c : Config) : my_allocator → List Nat → Option (List (Nat × Nat) × my_allocator)
  | s, [] => some ([], s)
  | s, n :: ns =>
      match allocate_start c s n, allocate c s n with
      | some (start, _), AllocResult.returned _ s1 =>
          match alloc_runs c s1 ns with
          | some (runs, s2) => some ((start, n) :: runs, s2)
          | none => none
      | _, _ => none

/-- The slot runs `[r1.1, r1.1 + r1.2)` and `[r2.1, r2.1 + r2.2)` share no slot. -/
def runs_disjoint (r1 r2 : Nat × Nat) : Prop :=
  ∀ q, ¬ (r1.1 ≤ q ∧ q < r1.1 + r1.2 ∧ r2.1 ≤ q ∧ q < r2.1 + r2.2)

/-- A pool with one full block, `BlockSize = 10`. -/
def full10 : my_allocator :=
  { blocks := [{ data := 4096, allocated := List.replicate 10 true }],
    total_size := 10, used_size := 10 }

/-- States reachable from a freshly constructed allocator by calls of
`allocate` and `deallocate` with arbitrary arguments.  A call of `allocate`
that throws leaves the pool as `get_pointer` found it. -/
inductive Reachable (c : Config) : my_allocator → Prop where
  | init : Reachable c (default_ctor c)
  | alloc {s s2 : my_allocator} {p : Nat} (n : Nat) :
      Reachable c s → allocate c s n = AllocResult.returned p s2 → Reachable c s2
  | alloc_threw {s s2 : my_allocator} (n : Nat) :
      Reachable c s → allocate c s n = AllocResult.threw s2 → Reachable c s2
  | dealloc {s : my_allocator} (p n : Nat) :
      Reachable c s → Reachable c (deallocate c s p n)

/-- The call `deallocate(p, n)` either changes nothing or releases a run that
lies inside the pool and whose `n` slots are all in use. -/
def releases_used_run (c : Config) (s : my_allocator) (p n : Nat) : Prop :=
  deallocate c s p n = s
    ∨ (get_position c s p + n ≤ s.total_size
        ∧ ∀ q, get_position c s p ≤ q → q < get_position c s p + n
            → get_allocated c s q = true)

/-- States reachable from a freshly constructed allocator by calls of
`allocate` whose sizes fit in `size_t` and calls of `deallocate` that satisfy
`releases_used_run`. -/
inductive ReachableUsed (c : Config) : my_allocator → Prop where
  | init : ReachableUsed c (default_ctor c)
  | alloc {s s2 : my_allocator} {p : Nat} (n : Nat) :
      ReachableUsed c s → Fits c s n → allocate c s n = AllocResult.returned p s2
        → ReachableUsed c s2
  | dealloc {s : my_allocator} (p n : Nat) :
      ReachableUsed c s → releases_used_run c s p n → ReachableUsed c (deallocate c s p n)

/-- The pool after `allocate(3)` on a fresh allocator with `BlockSize = 10`. -/
def after3 : my_allocator :=
  { blocks := [{ data := 4096,
                 allocated := [true, true, true, false, false, false, false, false, false,
                   false] }],
    total_size := 10, used_size := 3 }

/-- The pool after `allocate(7)` on a fresh allocator with `BlockSize = 10`. -/
def after7 : my_allocator :=
  { blocks := [{ data := 4096,
                 allocated := [true, true, true, true, true, true, true, false, false,
                   false] }],
    total_size := 10, used_size := 7 }

/-- The pool after a second `allocate(7)`: two blocks, slots 0 to 13 in use. -/
def after7_7 : my_allocator :=
  { blocks := [{ data := 4096, allocated := List.replicate 10 true },
               { data := 8192,
                 allocated := [true, true, true, true, false, false, false, false, false,
                   false] }],
    total_size := 20, used_size := 14 }

/-- The pool after `allocate(2)` on a fresh allocator with `BlockSize = 10`. -/
def after2 : my_allocator :=
  { blocks := [{ data := 4096,
                 allocated := [true, true, false, false, false, false, false, false, false,
                   false] }],
    total_size := 10, used_size := 2 }

/-- The pointer `p` lies in no block's byte range, or where it lies in one its
offset is not a multiple of `sizeof(T)`. -/
def unmappable (c : Config) (s : my_allocator) (p : Nat) : Prop :=
  ∀ b ∈ s.blocks,
    ¬ (b.data ≤ p ∧ p < b.data + size_mul c.BlockSize c.sizeofT)
      ∨ (p - b.data) % c.sizeofT ≠ 0

/-- The converting constructor
`my_allocator(const my_allocator<U, OtherBlockSize>&)`: it has the body of the
default constructor and never names its parameter.  The result is the pair of
the instance constructed and of the source instance after the call. -/
def converting_ctor (c : Config) (other : my_allocator) : my_allocator × my_allocator :=
  (reserve c { blocks := [], total_size := 0, used_size := 0 } c.BlockSize, other)

/-- The pool as the capacity check at the start of `allocate(n)` leaves it:
`if (used_size + n > total_size) reserve(...)`. -/
def after_capacity_check (c : Config) (s : my_allocator) (n : Nat) : my_allocator :=
  if size_add s.used_size n > s.total_size then reserve c s (grow_target c s n) else s

/-- States reachable from a freshly constructed allocator by calls of
`allocate` whose sizes fit in `size_t` (returning or throwing) and calls of
`deallocate` with arbitrary arguments. -/
inductive ReachableSized (c : Config) : my_allocator → Prop where
  | init : ReachableSized c (default_ctor c)
  | alloc {s s2 : my_allocator} {p : Nat} (n : Nat) :
      ReachableSized c s → Fits c s n → allocate c s n = AllocResult.returned p s2
        → ReachableSized c s2
  | alloc_threw {s s2 : my_allocator} (n : Nat) :
      ReachableSized c s → Fits c s n → allocate c s n = AllocResult.threw s2
        → ReachableSized c s2
  | dealloc {s : my_allocator} (p n : Nat) :
      ReachableSized c s → ReachableSized c (deallocate c s p n)

/-- The byte ranges `[data, data + BlockSize * sizeof(T))` of distinct blocks
of the pool do not overlap. -/
def DisjointBlocks (c : Config) (s : my_allocator) : Prop :=
  ∀ (i j : Nat) (bi bj : memory_block), i ≠ j →
    s.blocks[i]? = some bi → s.blocks[j]? = some bj →
    bi.data + c.BlockSize * c.sizeofT ≤ bj.data
      ∨ bj.data + c.BlockSize * c.sizeofT ≤ bi.data

/-- Specification of "the `n` slots from `start` on are all free", after the
spec's words. -/
def run_is_free (c : Config) (s : my_allocator) (start n : Nat) : Bool :=
  (List.range n).all (fun i => !get_allocated c s (start + i))

/-- Specification of the search, after the spec's words: the naive first-fit
scan tries the candidate starts `start, start + 1, ...` (`k` of them),
advancing by one, and returns the first whose `n` slots are all free. -/
def naive_first_fit (c : Config) (s : my_allocator) (n : Nat) : Nat → Nat → Option Nat
  | 0, _ => none
  | k + 1, start =>
      if run_is_free c s start n then some start
      else naive_first_fit c s n k (start + 1)

/-- The outcome of the naive scan as an outcome of the scan loop. -/
def naive_result : Option Nat → ScanResult
  | some t => ScanResult.found t
  | none => ScanResult.not_found

/-- A run handed out by `allocate` and not yet returned: the pointer that was
returned, the position of its first slot and its length. -/
structure LiveRun where
  ptr : Nat
  start : Nat
  len : Nat
deriving DecidableEq

/-- Two live runs share no slot. -/
def live_disjoint (r1 r2 : LiveRun) : Prop :=
  ∀ q, ¬ (r1.start ≤ q ∧ q < r1.start + r1.len ∧ r2.start ≤ q ∧ q < r2.start + r2.len)

/-- States reachable from a freshly constructed allocator by a well-paired
sequence of calls, together with the runs that are live: `allocate(n)` with
`n > 0` (fitting in `size_t`) adds the run it returns, and `deallocate(p, n)`
is only called with the pointer and the length of a live run, which it
removes. -/
inductive WellPaired (c : Config) : my_allocator → List LiveRun → Prop where
  | init : WellPaired c (default_ctor c) []
  | alloc {s s2 : my_allocator} {live : List LiveRun} {p start : Nat} (n : Nat) :
      WellPaired c s live → 0 < n → Fits c s n
        → allocate_start c s n = some (start, s2)
        → allocate c s n = AllocResult.returned p s2
        → WellPaired c s2 ({ ptr := p, start := start, len := n } :: live)
  | dealloc {s : my_allocator} {live : List LiveRun} (r : LiveRun) :
      WellPaired c s live → r ∈ live
        → WellPaired c (deallocate c s r.ptr r.len) (live.erase r)

/-- The invariant of well-paired executions. -/
structure LiveInv (c : Config) (s : my_allocator) (live : List LiveRun) : Prop where
  inv : PoolInv c s
  layout : HeapLayout c s
  total_lt : s.total_size + c.BlockSize < SIZE_MOD
  runs : ∀ r ∈ live, 0 < r.len ∧ r.start + r.len ≤ s.total_size
    ∧ r.ptr = c.heap (r.start / c.BlockSize) + (r.start % c.BlockSize) * c.sizeofT
  disjoint : live.Pairwise live_disjoint
  occupied : ∀ q, get_allocated c s q = true
    ↔ ∃ r ∈ live, r.start ≤ q ∧ q < r.start + r.len

/-! ## Properties -/

theorem size_add_eq {a b : Nat} (h : a + b < SIZE_MOD) : size_add a b = a + b := by
  unfold size_add; exact Nat.mod_eq_of_lt h

theorem size_mul_eq {a b : Nat} (h : a * b < SIZE_MOD) : size_mul a b = a * b := by
  unfold size_mul; exact Nat.mod_eq_of_lt h

theorem size_sub_eq {a b : Nat} (hb : b ≤ a) (ha : a < SIZE_MOD) : size_sub a b = a - b := by
  unfold size_sub
  have hb2 : b < SIZE_MOD := by omega
  rw [Nat.mod_eq_of_lt ha, Nat.mod_eq_of_lt hb2]
  have : a + SIZE_MOD - b = (a - b) + SIZE_MOD := by omega
  rw [this, Nat.add_mod_right]
  exact Nat.mod_eq_of_lt (by omega)

theorem WF.block_at {c : Config} {s : my_allocator} (h : WF c s) {q : Nat}
    (hq : q < s.total_size) :
    ∃ b, s.blocks[q / c.BlockSize]? = some b ∧ b.allocated.length = c.BlockSize := by
  have hlt : q / c.BlockSize < s.blocks.length := by
    rw [Nat.div_lt_iff_lt_mul h.block_size_pos, ← h.total_eq]; exact hq
  refine ⟨s.blocks[q / c.BlockSize], List.getElem?_eq_getElem hlt, ?_⟩
  exact h.block_len _ (List.getElem_mem _)

theorem set_allocated_total (c : Config) (s : my_allocator) (p : Nat) (v : Bool) :
    (set_allocated c s p v).total_size = s.total_size := by
  unfold set_allocated; split <;> rfl

theorem set_allocated_used (c : Config) (s : my_allocator) (p : Nat) (v : Bool) :
    (set_allocated c s p v).used_size = s.used_size := by
  unfold set_allocated; split <;> rfl

theorem set_allocated_length (c : Config) (s : my_allocator) (p : Nat) (v : Bool) :
    (set_allocated c s p v).blocks.length = s.blocks.length := by
  unfold set_allocated; split <;> simp

theorem set_allocated_data (c : Config) (s : my_allocator) (p : Nat) (v : Bool) (k : Nat) :
    ((set_allocated c s p v).blocks[k]?).map memory_block.data
      = (s.blocks[k]?).map memory_block.data := by
  unfold set_allocated; split
  · rfl
  · simp only [List.getElem?_modify]
    cases s.blocks[k]? with
    | none => rfl
    | some b => by_cases hk : p / c.BlockSize = k <;> simp [hk]

theorem set_allocated_wf {c : Config} {s : my_allocator} (h : WF c s) (p : Nat) (v : Bool) :
    WF c (set_allocated c s p v) := by
  refine ⟨h.block_size_pos, ?_, ?_⟩
  · rw [set_allocated_total, set_allocated_length]; exact h.total_eq
  · intro b hb
    unfold set_allocated at hb
    split at hb
    · exact h.block_len b hb
    · obtain ⟨k, hk, rfl⟩ := List.getElem_of_mem hb
      simp only [List.getElem_modify]
      simp only [List.length_modify] at hk
      split
      · simp only [List.length_set]; exact h.block_len _ (List.getElem_mem _)
      · exact h.block_len _ (List.getElem_mem _)

theorem get_allocated_of_block {c : Config} {s : my_allocator} {q : Nat} {b : memory_block}
    (hq : q < s.total_size) (hb : s.blocks[q / c.BlockSize]? = some b) :
    get_allocated c s q = (b.allocated[q % c.BlockSize]?).getD false := by
  unfold get_allocated
  have hq2 : ¬ q ≥ s.total_size := by omega
  simp only [hq2, if_false, hb, List.getD_eq_getElem?_getD]

theorem get_allocated_out {c : Config} {s : my_allocator} {q : Nat}
    (hq : s.total_size ≤ q) : get_allocated c s q = false := by
  unfold get_allocated
  simp only [ge_iff_le, hq, if_true]

theorem get_allocated_set {c : Config} {s : my_allocator} (h : WF c s) (p q : Nat) (v : Bool) :
    get_allocated c (set_allocated c s p v) q
      = if q = p ∧ p < s.total_size then v else get_allocated c s q := by
  by_cases hp : p < s.total_size
  swap
  · have : set_allocated c s p v = s := by
      unfold set_allocated; simp only [ge_iff_le, Nat.le_of_not_lt hp, if_true]
    rw [this, if_neg (fun hh => hp hh.2)]
  by_cases hq : q < s.total_size
  swap
  · have hne : q ≠ p := by omega
    rw [if_neg (fun hh => hne hh.1)]
    rw [get_allocated_out (by rw [set_allocated_total]; omega), get_allocated_out (by omega)]
  obtain ⟨bq, hbq, hlq⟩ := h.block_at hq
  have hB := h.block_size_pos
  have hq2 : q < (set_allocated c s p v).total_size := by rw [set_allocated_total]; exact hq
  have hblk : (set_allocated c s p v).blocks[q / c.BlockSize]?
      = some (if p / c.BlockSize = q / c.BlockSize
          then { bq with allocated := bq.allocated.set (p % c.BlockSize) v } else bq) := by
    unfold set_allocated
    have hp2 : ¬ p ≥ s.total_size := by omega
    simp only [hp2, if_false, List.getElem?_modify, hbq, Option.map_eq_map, Option.map_some']
  rw [get_allocated_of_block hq2 hblk, get_allocated_of_block hq hbq]
  by_cases hk : p / c.BlockSize = q / c.BlockSize
  · simp only [hk, if_true, List.getElem?_set]
    by_cases hm : p % c.BlockSize = q % c.BlockSize
    · have hpq : q = p := by
        rw [← Nat.div_add_mod q c.BlockSize, ← Nat.div_add_mod p c.BlockSize, hk, hm]
      have hlt : q % c.BlockSize < bq.allocated.length := by
        rw [hlq]; exact Nat.mod_lt _ hB
      simp only [hm, if_true, hlt, hpq, hp, and_self, Option.getD_some]
    · have hne : q ≠ p := fun hh => hm (by rw [hh])
      simp only [hm, if_false, hne, false_and]
  · have hne : q ≠ p := fun hh => hk (by rw [hh])
    simp only [hk, if_false, hne, false_and]

theorem count_set_bool (l : List Bool) (i : Nat) (v : Bool) (h : i < l.length) :
    (l.set i v).count true + (if (l[i]?).getD false = true then 1 else 0)
      = l.count true + (if v = true then 1 else 0) := by
  induction l generalizing i with
  | nil => simp at h
  | cons a l ih =>
    cases i with
    | zero =>
      cases a <;> cases v <;> simp [List.count_cons]
    | succ i =>
      have h2 : i < l.length := by simpa using h
      have := ih i h2
      simp only [List.set_cons_succ, List.count_cons, List.getElem?_cons_succ]
      omega

theorem sum_map_modify {α : Type} (g : α → Nat) (f : α → α) (l : List α) (k : Nat) (a : α)
    (hk : l[k]? = some a) :
    ((l.modify f k).map g).sum + g a = (l.map g).sum + g (f a) := by
  induction l generalizing k with
  | nil => simp at hk
  | cons x l ih =>
    cases k with
    | zero =>
      simp only [List.getElem?_cons_zero, Option.some.injEq] at hk
      subst hk
      simp [List.modify, List.modifyHead]
      omega
    | succ k =>
      simp only [List.getElem?_cons_succ] at hk
      have := ih k hk
      simp only [List.modify_succ_cons, List.map_cons, List.sum_cons]
      omega

theorem count_true_set {c : Config} {s : my_allocator} (h : WF c s) {p : Nat} (v : Bool)
    (hp : p < s.total_size) :
    count_true (set_allocated c s p v) + (if get_allocated c s p = true then 1 else 0)
      = count_true s + (if v = true then 1 else 0) := by
  obtain ⟨b, hb, hl⟩ := h.block_at hp
  rw [get_allocated_of_block hp hb]
  have hlt : p % c.BlockSize < b.allocated.length := by
    rw [hl]; exact Nat.mod_lt _ h.block_size_pos
  have h1 := count_set_bool b.allocated (p % c.BlockSize) v hlt
  have h2 := sum_map_modify (fun b : memory_block => b.allocated.count true)
    (fun b => { b with allocated := b.allocated.set (p % c.BlockSize) v })
    s.blocks (p / c.BlockSize) b hb
  have hs : count_true (set_allocated c s p v)
      = ((s.blocks.modify
          (fun b => { b with allocated := b.allocated.set (p % c.BlockSize) v })
          (p / c.BlockSize)).map (fun b : memory_block => b.allocated.count true)).sum := by
    unfold set_allocated count_true
    have hp2 : ¬ p ≥ s.total_size := by omega
    simp only [hp2, if_false]
  rw [hs]
  unfold count_true
  simp only at h2
  omega

theorem mark_run_total (c : Config) (v : Bool) (start k i : Nat) (s : my_allocator) :
    (mark_run c v start k i s).total_size = s.total_size := by
  induction k generalizing i s with
  | zero => rfl
  | succ k ih => simp only [mark_run]; rw [ih, set_allocated_total]

theorem mark_run_used (c : Config) (v : Bool) (start k i : Nat) (s : my_allocator) :
    (mark_run c v start k i s).used_size = s.used_size := by
  induction k generalizing i s with
  | zero => rfl
  | succ k ih => simp only [mark_run]; rw [ih, set_allocated_used]

theorem mark_run_length (c : Config) (v : Bool) (start k i : Nat) (s : my_allocator) :
    (mark_run c v start k i s).blocks.length = s.blocks.length := by
  induction k generalizing i s with
  | zero => rfl
  | succ k ih => simp only [mark_run]; rw [ih, set_allocated_length]

theorem mark_run_data (c : Config) (v : Bool) (start k i : Nat) (s : my_allocator) (j : Nat) :
    ((mark_run c v start k i s).blocks[j]?).map memory_block.data
      = (s.blocks[j]?).map memory_block.data := by
  induction k generalizing i s with
  | zero => rfl
  | succ k ih => simp only [mark_run]; rw [ih, set_allocated_data]

theorem mark_run_wf {c : Config} {s : my_allocator} (h : WF c s) (v : Bool) (start k i : Nat) :
    WF c (mark_run c v start k i s) := by
  induction k generalizing i s with
  | zero => exact h
  | succ k ih => simp only [mark_run]; exact ih (set_allocated_wf h _ _) _

theorem get_allocated_mark_run {c : Config} {s : my_allocator} (h : WF c s) (v : Bool)
    (start k i : Nat) (hr : start + i + k ≤ SIZE_MOD) (q : Nat) :
    get_allocated c (mark_run c v start k i s) q
      = if start + i ≤ q ∧ q < start + i + k ∧ q < s.total_size then v
        else get_allocated c s q := by
  induction k generalizing i s with
  | zero =>
    have : ¬ (start + i ≤ q ∧ q < start + i + 0 ∧ q < s.total_size) := by omega
    simp only [mark_run, this, if_false]
  | succ k ih =>
    simp only [mark_run]
    have hadd : size_add start i = start + i := size_add_eq (by omega)
    rw [ih (set_allocated_wf h _ _) (i + 1) (by omega), set_allocated_total,
      get_allocated_set h, hadd]
    by_cases h1 : start + (i + 1) ≤ q ∧ q < start + (i + 1) + k ∧ q < s.total_size
    · rw [if_pos h1, if_pos (by omega)]
    · rw [if_neg h1]
      by_cases h2 : q = start + i ∧ start + i < s.total_size
      · rw [if_pos h2, if_pos (by omega)]
      · rw [if_neg h2, if_neg (by omega)]

theorem count_true_mark_run_true {c : Config} {s : my_allocator} (h : WF c s)
    (start k i : Nat) (hr : start + i + k ≤ s.total_size) (hm : s.total_size ≤ SIZE_MOD)
    (hfree : ∀ q, start + i ≤ q → q < start + i + k → get_allocated c s q = false) :
    count_true (mark_run c true start k i s) = count_true s + k := by
  induction k generalizing i s with
  | zero => rfl
  | succ k ih =>
    simp only [mark_run]
    have hadd : size_add start i = start + i := size_add_eq (by omega)
    rw [hadd]
    have hwf := set_allocated_wf h (start + i) true
    rw [ih hwf (i + 1) (by rw [set_allocated_total]; omega) (by rw [set_allocated_total]; exact hm)]
    · have hc := count_true_set h true (show start + i < s.total_size by omega)
      rw [hfree (start + i) (by omega) (by omega)] at hc
      simp at hc
      omega
    · intro q hq1 hq2
      rw [get_allocated_set h, if_neg (by omega)]
      exact hfree q (by omega) (by omega)

theorem count_true_mark_run_false {c : Config} {s : my_allocator} (h : WF c s)
    (start k i : Nat) (hr : start + i + k ≤ s.total_size) (hm : s.total_size ≤ SIZE_MOD)
    (hocc : ∀ q, start + i ≤ q → q < start + i + k → get_allocated c s q = true) :
    count_true (mark_run c false start k i s) + k = count_true s := by
  induction k generalizing i s with
  | zero => rfl
  | succ k ih =>
    simp only [mark_run]
    have hadd : size_add start i = start + i := size_add_eq (by omega)
    rw [hadd]
    have hwf := set_allocated_wf h (start + i) false
    have hc := count_true_set h false (show start + i < s.total_size by omega)
    rw [hocc (start + i) (by omega) (by omega)] at hc
    simp at hc
    have := ih hwf (i + 1) (by rw [set_allocated_total]; omega)
      (by rw [set_allocated_total]; exact hm)
      (by
        intro q hq1 hq2
        rw [get_allocated_set h, if_neg (by omega)]
        exact hocc q (by omega) (by omega))
    omega

theorem emplace_blocks_eq (c : Config) (k : Nat) (l : List memory_block) :
    emplace_blocks c k l = l ++ new_blocks c l.length k := by
  induction k generalizing l with
  | zero => simp [emplace_blocks, new_blocks]
  | succ k ih =>
    simp only [emplace_blocks]
    rw [ih]
    simp only [new_blocks, List.length_append, List.length_singleton, List.append_assoc,
      List.singleton_append, List.range_succ_eq_map, List.map_cons, List.map_map,
      Nat.add_zero]
    congr 2
    apply List.map_congr_left
    intro a _
    simp only [Function.comp]
    congr 1
    omega

theorem new_blocks_length (c : Config) (len k : Nat) : (new_blocks c len k).length = k := by
  simp [new_blocks]

theorem new_blocks_mem {c : Config} {len k : Nat} {b : memory_block}
    (hb : b ∈ new_blocks c len k) :
    ∃ j, j < k ∧ b = memory_block.create c (len + j) c.BlockSize := by
  simp only [new_blocks, List.mem_map, List.mem_range] at hb
  obtain ⟨j, hj, rfl⟩ := hb
  exact ⟨j, hj, rfl⟩

theorem new_blocks_getElem? (c : Config) (len k j : Nat) (hj : j < k) :
    (new_blocks c len k)[j]? = some (memory_block.create c (len + j) c.BlockSize) := by
  simp [new_blocks, List.getElem?_map, List.getElem?_range hj]

theorem new_blocks_count (c : Config) (len k : Nat) :
    ((new_blocks c len k).map (fun b : memory_block => b.allocated.count true)).sum = 0 := by
  apply List.sum_eq_zero
  intro x hx
  simp only [List.mem_map] at hx
  obtain ⟨b, hb, rfl⟩ := hx
  obtain ⟨j, _, rfl⟩ := new_blocks_mem hb
  simp [memory_block.create, List.count_replicate]

theorem reserve_le {c : Config} {s : my_allocator} {new_size : Nat}
    (h : new_size ≤ s.total_size) : reserve c s new_size = s := by
  unfold reserve; rw [if_pos h]

theorem ceil_blocks_bounds {B : Nat} (hB : 0 < B) (e : Nat) :
    e ≤ ((e + B - 1) / B) * B ∧ ((e + B - 1) / B) * B < e + B := by
  have h1 := Nat.div_add_mod (e + B - 1) B
  have h2 := Nat.mod_lt (e + B - 1) hB
  have h3 : B * ((e + B - 1) / B) = ((e + B - 1) / B) * B := Nat.mul_comm _ _
  omega

theorem reserve_blocks {c : Config} {s : my_allocator} (hB : 0 < c.BlockSize) {new_size : Nat}
    (hgt : s.total_size < new_size) (hfit : new_size + c.BlockSize < SIZE_MOD) :
    (reserve c s new_size).blocks
      = s.blocks ++ new_blocks c s.blocks.length
          ((new_size - s.total_size + c.BlockSize - 1) / c.BlockSize) := by
  unfold reserve
  rw [if_neg (by omega)]
  simp only
  rw [emplace_blocks_eq]
  have h1 : size_sub new_size s.total_size = new_size - s.total_size :=
    size_sub_eq (by omega) (by omega)
  have h2 : size_add (new_size - s.total_size) c.BlockSize
      = new_size - s.total_size + c.BlockSize := size_add_eq (by omega)
  have h3 : size_sub (new_size - s.total_size + c.BlockSize) 1
      = new_size - s.total_size + c.BlockSize - 1 := size_sub_eq (by omega) (by omega)
  rw [h1, h2, h3]

theorem reserve_used (c : Config) (s : my_allocator) (new_size : Nat) :
    (reserve c s new_size).used_size = s.used_size := by
  unfold reserve; split <;> rfl

theorem reserve_total {c : Config} {s : my_allocator} (h : WF c s) {new_size : Nat}
    (hgt : s.total_size < new_size) (hfit : new_size + c.BlockSize < SIZE_MOD) :
    (reserve c s new_size).total_size
      = s.total_size + ((new_size - s.total_size + c.BlockSize - 1) / c.BlockSize) * c.BlockSize := by
  have hB := h.block_size_pos
  have hb := ceil_blocks_bounds hB (new_size - s.total_size)
  have hblk := reserve_blocks hB hgt hfit
  have : (reserve c s new_size).total_size
      = size_mul (reserve c s new_size).blocks.length c.BlockSize := by
    unfold reserve; rw [if_neg (by omega)]
  rw [this, hblk, List.length_append, new_blocks_length, size_mul_eq, Nat.add_mul, ← h.total_eq]
  rw [Nat.add_mul, ← h.total_eq]
  omega

theorem reserve_wf {c : Config} {s : my_allocator} (h : WF c s) {new_size : Nat}
    (hgt : s.total_size < new_size) (hfit : new_size + c.BlockSize < SIZE_MOD) :
    WF c (reserve c s new_size) := by
  have hB := h.block_size_pos
  refine ⟨hB, ?_, ?_⟩
  · rw [reserve_total h hgt hfit, reserve_blocks hB hgt hfit, List.length_append,
      new_blocks_length, Nat.add_mul, ← h.total_eq]
  · intro b hb
    rw [reserve_blocks hB hgt hfit, List.mem_append] at hb
    rcases hb with hb | hb
    · exact h.block_len b hb
    · obtain ⟨j, _, rfl⟩ := new_blocks_mem hb
      simp [memory_block.create]

theorem reserve_count {c : Config} {s : my_allocator} (h : WF c s) {new_size : Nat}
    (hgt : s.total_size < new_size) (hfit : new_size + c.BlockSize < SIZE_MOD) :
    count_true (reserve c s new_size) = count_true s := by
  unfold count_true
  rw [reserve_blocks h.block_size_pos hgt hfit, List.map_append, List.sum_append,
    new_blocks_count, Nat.add_zero]

theorem get_allocated_reserve {c : Config} {s : my_allocator} (h : WF c s) {new_size : Nat}
    (hgt : s.total_size < new_size) (hfit : new_size + c.BlockSize < SIZE_MOD) (q : Nat) :
    get_allocated c (reserve c s new_size) q = get_allocated c s q := by
  have hB := h.block_size_pos
  have hwf := reserve_wf h hgt hfit
  have htot := reserve_total h hgt hfit
  have hblk := reserve_blocks hB hgt hfit
  by_cases hq : q < (reserve c s new_size).total_size
  swap
  · rw [get_allocated_out (by omega), get_allocated_out (by omega)]
  by_cases hq0 : q < s.total_size
  · obtain ⟨b, hb, _⟩ := h.block_at hq0
    have hidx : q / c.BlockSize < s.blocks.length := by
      rw [Nat.div_lt_iff_lt_mul hB, ← h.total_eq]; exact hq0
    have hb2 : (reserve c s new_size).blocks[q / c.BlockSize]? = some b := by
      rw [hblk, List.getElem?_append_left hidx]; exact hb
    rw [get_allocated_of_block hq hb2, get_allocated_of_block hq0 hb]
  · rw [get_allocated_out (Nat.le_of_not_lt hq0)]
    have hidx : s.blocks.length ≤ q / c.BlockSize := by
      rw [Nat.le_div_iff_mul_le hB, ← h.total_eq]; omega
    have hidx2 : q / c.BlockSize < (reserve c s new_size).blocks.length := by
      rw [Nat.div_lt_iff_lt_mul hB, ← hwf.total_eq]; exact hq
    rw [hblk, List.length_append, new_blocks_length] at hidx2
    have hb2 : (reserve c s new_size).blocks[q / c.BlockSize]?
        = some (memory_block.create c (s.blocks.length + (q / c.BlockSize - s.blocks.length))
            c.BlockSize) := by
      rw [hblk, List.getElem?_append_right hidx]
      exact new_blocks_getElem? c _ _ _ (by omega)
    rw [get_allocated_of_block hq hb2]
    simp only [memory_block.create, List.getElem?_replicate]
    split <;> rfl

theorem scan_run_none {c : Config} {s : my_allocator} {start k i : Nat}
    (hr : start + i + k ≤ SIZE_MOD) (h : scan_run c s start k i = none) :
    ∀ q, start + i ≤ q → q < start + i + k → get_allocated c s q = false := by
  induction k generalizing i with
  | zero => intro q h1 h2; omega
  | succ k ih =>
    simp only [scan_run] at h
    have hadd : size_add start i = start + i := size_add_eq (by omega)
    rw [hadd] at h
    split at h
    · exact absurd h (by simp)
    · rename_i hfree
      intro q h1 h2
      by_cases hq : q = start + i
      · subst hq; simpa using hfree
      · exact ih (by omega) h q (by omega) (by omega)

theorem scan_run_some {c : Config} {s : my_allocator} {start k i j : Nat}
    (hr : start + i + k ≤ SIZE_MOD) (h : scan_run c s start k i = some j) :
    i ≤ j ∧ j < i + k ∧ get_allocated c s (start + j) = true := by
  induction k generalizing i with
  | zero => simp [scan_run] at h
  | succ k ih =>
    simp only [scan_run] at h
    have hadd : size_add start i = start + i := size_add_eq (by omega)
    rw [hadd] at h
    split at h
    · rename_i hocc
      simp only [Option.some.injEq] at h
      subst h
      exact ⟨Nat.le_refl _, by omega, hocc⟩
    · obtain ⟨h1, h2, h3⟩ := ih (by omega) h
      exact ⟨by omega, by omega, h3⟩

theorem scan_spec (c : Config) (s : my_allocator) (n bound : Nat)
    (hb : bound + n < SIZE_MOD) (fuel start : Nat)
    (hfuel : bound + 1 - start < fuel)
    (hprev : ∀ t, t < start → ¬ FreeRun c s n t) :
    (∃ t, scan c s n bound fuel start = ScanResult.found t ∧ t ≤ bound ∧ FreeRun c s n t
        ∧ ∀ t2, t2 < t → ¬ FreeRun c s n t2)
    ∨ (scan c s n bound fuel start = ScanResult.not_found
        ∧ ∀ t, t ≤ bound → ¬ FreeRun c s n t) := by
  induction fuel generalizing start with
  | zero => omega
  | succ fuel ih =>
    simp only [scan]
    by_cases hsb : start ≤ bound
    · rw [if_pos hsb]
      cases hrun : scan_run c s start n 0 with
      | none =>
        left
        refine ⟨start, rfl, hsb, ?_, hprev⟩
        intro q h1 h2
        exact scan_run_none (by omega) hrun q (by omega) (by omega)
      | some i =>
        simp only
        obtain ⟨_, hi, hocc⟩ := scan_run_some (by omega) hrun
        have h1 : size_add start i = start + i := size_add_eq (by omega)
        have h2 : size_add (start + i) 1 = start + i + 1 := size_add_eq (by omega)
        rw [h1, h2]
        apply ih (start + i + 1) (by omega)
        intro t ht hfree
        by_cases hts : t < start
        · exact hprev t hts hfree
        · have := hfree (start + i) (by omega) (by omega)
          rw [hocc] at this
          exact absurd this (by simp)
    · rw [if_neg hsb]
      right
      exact ⟨rfl, fun t ht => hprev t (by omega)⟩

theorem growth_bounds {c : Config} (hB : 0 < c.BlockSize) (n : Nat) :
    n ≤ growth c n ∧ growth c n < n + c.BlockSize :=
  ceil_blocks_bounds hB n

theorem growth_idem {c : Config} (hB : 0 < c.BlockSize) (n : Nat) :
    (growth c n + c.BlockSize - 1) / c.BlockSize * c.BlockSize = growth c n := by
  unfold growth
  have : ((n + c.BlockSize - 1) / c.BlockSize * c.BlockSize + c.BlockSize - 1) / c.BlockSize
      = (n + c.BlockSize - 1) / c.BlockSize := by
    have h1 : (n + c.BlockSize - 1) / c.BlockSize * c.BlockSize + c.BlockSize - 1
        = (c.BlockSize - 1) + c.BlockSize * ((n + c.BlockSize - 1) / c.BlockSize) := by
      rw [Nat.mul_comm]; omega
    rw [h1, Nat.add_mul_div_left _ _ hB, Nat.div_eq_of_lt (by omega), Nat.zero_add]
  rw [this]

theorem grow_target_eq {c : Config} {s : my_allocator} {n : Nat} (hB : 0 < c.BlockSize)
    (hfit : Fits c s n) : grow_target c s n = s.total_size + growth c n := by
  unfold Fits at hfit
  have hg := growth_bounds hB n
  unfold grow_target
  have h1 : size_add n c.BlockSize = n + c.BlockSize := size_add_eq (by omega)
  have h2 : size_sub (n + c.BlockSize) 1 = n + c.BlockSize - 1 :=
    size_sub_eq (by omega) (by omega)
  rw [h1, h2]
  have h3 : size_mul ((n + c.BlockSize - 1) / c.BlockSize) c.BlockSize = growth c n :=
    size_mul_eq (by unfold growth at hg; omega)
  rw [h3]
  exact size_add_eq (by omega)

theorem count_true_le {c : Config} {s : my_allocator} (h : WF c s) :
    count_true s ≤ s.total_size := by
  rw [h.total_eq]
  unfold count_true
  have hl := h.block_len
  generalize s.blocks = l at hl
  induction l with
  | nil => simp
  | cons b l ih =>
    have h1 := ih (fun x hx => hl x (List.mem_cons_of_mem _ hx))
    have h2 := hl b (List.mem_cons_self _ _)
    have h3 := List.count_le_length true b.allocated
    simp only [List.map_cons, List.sum_cons, List.length_cons, Nat.add_mul, Nat.one_mul]
    omega

/-- Growing by `growth c n`: the properties of `reserve` used by `allocate`. -/
theorem reserve_growth {c : Config} {s : my_allocator} {n : Nat} (h : WF c s) (hn : 0 < n)
    (hfit : Fits c s n) :
    WF c (reserve c s (s.total_size + growth c n))
      ∧ (reserve c s (s.total_size + growth c n)).total_size = s.total_size + growth c n
      ∧ (reserve c s (s.total_size + growth c n)).used_size = s.used_size
      ∧ count_true (reserve c s (s.total_size + growth c n)) = count_true s
      ∧ ∀ q, get_allocated c (reserve c s (s.total_size + growth c n)) q
          = get_allocated c s q := by
  have hB := h.block_size_pos
  have hg := growth_bounds hB n
  unfold Fits at hfit
  have hgt : s.total_size < s.total_size + growth c n := by omega
  have hf : s.total_size + growth c n + c.BlockSize < SIZE_MOD := by omega
  refine ⟨reserve_wf h hgt hf, ?_, reserve_used _ _ _, reserve_count h hgt hf,
    get_allocated_reserve h hgt hf⟩
  rw [reserve_total h hgt hf, Nat.add_sub_cancel_left, growth_idem hB]

theorem freeRun_congr {c : Config} {s s1 : my_allocator} {n t : Nat}
    (h : ∀ q, get_allocated c s1 q = get_allocated c s q) :
    FreeRun c s1 n t ↔ FreeRun c s n t := by
  unfold FreeRun
  constructor
  · intro hf q h1 h2; rw [← h q]; exact hf q h1 h2
  · intro hf q h1 h2; rw [h q]; exact hf q h1 h2

/-- The three ways `allocate` picks its run: found without growth, found after
the initial growth, or not found and placed in a fresh region. -/
theorem allocate_start_cases {c : Config} {s : my_allocator} {n : Nat}
    (hinv : PoolInv c s) (hn : 0 < n) (hfit : Fits c s n) :
    (∃ t, s.used_size + n ≤ s.total_size ∧ t + n ≤ s.total_size ∧ FreeRun c s n t
        ∧ (∀ t2, t2 < t → ¬ FreeRun c s n t2)
        ∧ allocate_start c s n
            = some (t, { mark_run c true t n 0 s with used_size := s.used_size + n }))
    ∨ (∃ t, s.total_size < s.used_size + n ∧ t + n ≤ s.total_size + growth c n
        ∧ FreeRun c s n t ∧ (∀ t2, t2 < t → ¬ FreeRun c s n t2)
        ∧ allocate_start c s n
            = some (t, { mark_run c true t n 0 (reserve c s (s.total_size + growth c n))
                          with used_size := s.used_size + n }))
    ∨ (s.used_size + n ≤ s.total_size ∧ (∀ t, t + n ≤ s.total_size → ¬ FreeRun c s n t)
        ∧ allocate_start c s n
            = some (s.total_size,
                { mark_run c true s.total_size n 0 (reserve c s (s.total_size + growth c n))
                  with used_size := s.used_size + n })) := by
  have hwf := hinv.wf
  have hB := hwf.block_size_pos
  have hle : s.used_size ≤ s.total_size := by rw [hinv.used_eq]; exact count_true_le hwf
  have hfit2 := hfit
  unfold Fits at hfit2
  have hg := growth_bounds hB n
  have hadd : size_add s.used_size n = s.used_size + n := size_add_eq (by omega)
  have hgt := grow_target_eq hB hfit
  by_cases hroom : s.used_size + n ≤ s.total_size
  · have hbound : size_sub s.total_size n = s.total_size - n :=
      size_sub_eq (by omega) (by omega)
    rcases scan_spec c s n (s.total_size - n)
        (by omega) (s.total_size - n + 2) 0 (by omega) (fun t ht => by omega) with
      ⟨t, hscan, htb, hfree, hmin⟩ | ⟨hscan, hnone⟩
    · left
      refine ⟨t, hroom, by omega, hfree, hmin, ?_⟩
      unfold allocate_start
      simp only [hadd, if_neg (Nat.not_lt.mpr hroom), hbound, hscan, mark_run_used]
    · right; right
      refine ⟨hroom, fun t ht => hnone t (by omega), ?_⟩
      unfold allocate_start
      simp only [hadd, if_neg (Nat.not_lt.mpr hroom), hbound, hscan, mark_run_used, hgt,
        reserve_used]
  · right; left
    have hlt : s.total_size < s.used_size + n := by omega
    obtain ⟨hwf1, htot1, hused1, _, hflags1⟩ := reserve_growth hwf hn hfit
    have hbound : size_sub (s.total_size + growth c n) n = s.total_size + growth c n - n :=
      size_sub_eq (by omega) (by omega)
    rcases scan_spec c (reserve c s (s.total_size + growth c n)) n
        (s.total_size + growth c n - n)
        (by omega) (s.total_size + growth c n - n + 2) 0 (by omega) (fun t ht => by omega) with
      ⟨t, hscan, htb, hfree, hmin⟩ | ⟨hscan, hnone⟩
    · refine ⟨t, hlt, by omega, (freeRun_congr hflags1).mp hfree,
        fun t2 ht2 hf => hmin t2 ht2 ((freeRun_congr hflags1).mpr hf), ?_⟩
      unfold allocate_start
      simp only [hadd, if_pos hlt, hgt, htot1, hbound, hscan, mark_run_used, hused1]
    · exfalso
      apply hnone s.total_size (by omega)
      rw [freeRun_congr hflags1]
      intro q h1 _
      exact get_allocated_out h1

theorem heapLayout_of_data {c : Config} {s s2 : my_allocator}
    (hd : ∀ j : Nat,
      (s2.blocks[j]?).map memory_block.data = (s.blocks[j]?).map memory_block.data)
    (h : HeapLayout c s) : HeapLayout c s2 := by
  intro j b hb
  have h1 := hd j
  rw [hb] at h1
  cases hs : s.blocks[j]? with
  | none => rw [hs] at h1; simp at h1
  | some b0 =>
    rw [hs] at h1
    simp only [Option.map_some', Option.some.injEq] at h1
    rw [h1]; exact h j b0 hs

theorem reserve_layout {c : Config} {s : my_allocator} (h : WF c s) {new_size : Nat}
    (hgt : s.total_size < new_size) (hfit : new_size + c.BlockSize < SIZE_MOD)
    (hl : HeapLayout c s) : HeapLayout c (reserve c s new_size) := by
  intro j b hb
  rw [reserve_blocks h.block_size_pos hgt hfit] at hb
  by_cases hj : j < s.blocks.length
  · rw [List.getElem?_append_left hj] at hb
    exact hl j b hb
  · have hj2 : s.blocks.length ≤ j := Nat.le_of_not_lt hj
    rw [List.getElem?_append_right hj2] at hb
    by_cases hk : j - s.blocks.length
        < (new_size - s.total_size + c.BlockSize - 1) / c.BlockSize
    · rw [new_blocks_getElem? c _ _ _ hk] at hb
      simp only [Option.some.injEq] at hb
      subst hb
      simp only [memory_block.create]
      congr 1
      omega
    · rw [List.getElem?_eq_none (by rw [new_blocks_length]; omega)] at hb
      simp at hb

theorem mark_run_layout {c : Config} {s : my_allocator} (v : Bool) (start k i : Nat)
    (h : HeapLayout c s) : HeapLayout c (mark_run c v start k i s) :=
  heapLayout_of_data (fun j => mark_run_data c v start k i s j) h

theorem mark_post {c : Config} {s X : my_allocator} {n t : Nat}
    (hX : WF c X) (hc : count_true X = count_true s)
    (hf : ∀ q, get_allocated c X q = get_allocated c s q)
    (ht : X.total_size = s.total_size ∨ X.total_size = s.total_size + growth c n)
    (hlt : X.total_size + c.BlockSize < SIZE_MOD) (hr : t + n ≤ X.total_size)
    (hfree : FreeRun c s n t) (hlay : HeapLayout c s → HeapLayout c X) :
    AllocPost c s n t { mark_run c true t n 0 X with used_size := s.used_size + n } := by
  have hm := mark_run_wf hX true t n 0
  have htot := mark_run_total c true t n 0 X
  refine
    { wf := ⟨hm.block_size_pos, hm.total_eq, hm.block_len⟩
      used := rfl
      count := ?_
      total_cases := ?_
      total_lt := ?_
      in_range := ?_
      was_free := hfree
      flags := ?_
      layout := fun hl => ?_ }
  · show count_true (mark_run c true t n 0 X) = count_true s + n
    rw [← hc]
    apply count_true_mark_run_true hX t n 0 (by omega) (by omega)
    intro q h1 h2
    rw [hf]; exact hfree q (by omega) (by omega)
  · show (mark_run c true t n 0 X).total_size = _ ∨ (mark_run c true t n 0 X).total_size = _
    rw [htot]; exact ht
  · show (mark_run c true t n 0 X).total_size + _ < _
    rw [htot]; exact hlt
  · show t + n ≤ (mark_run c true t n 0 X).total_size
    rw [htot]; exact hr
  · intro q
    show get_allocated c (mark_run c true t n 0 X) q = _
    rw [get_allocated_mark_run hX true t n 0 (by omega), hf]
    by_cases hq : t ≤ q ∧ q < t + n
    · rw [if_pos hq, if_pos (by omega)]
    · rw [if_neg hq, if_neg (by omega)]
  · exact mark_run_layout true t n 0 (hlay hl)

/-- On a pool that satisfies the invariant, the search of `allocate(n)` ends
and has the effect described by `AllocPost`. -/
theorem allocate_start_spec {c : Config} {s : my_allocator} {n : Nat}
    (hinv : PoolInv c s) (hn : 0 < n) (hfit : Fits c s n) :
    ∃ start s2, allocate_start c s n = some (start, s2) ∧ AllocPost c s n start s2 := by
  have hwf := hinv.wf
  have hB := hwf.block_size_pos
  have hg := growth_bounds hB n
  have hfit2 := hfit
  unfold Fits at hfit2
  obtain ⟨hwf1, htot1, _, hcount1, hflags1⟩ := reserve_growth hwf hn hfit
  have hlay1 : HeapLayout c s → HeapLayout c (reserve c s (s.total_size + growth c n)) :=
    reserve_layout hwf (by omega) (by omega)
  rcases allocate_start_cases hinv hn hfit with
    ⟨t, _, htn, hfree, _, heq⟩ | ⟨t, _, htn, hfree, _, heq⟩ | ⟨_, _, heq⟩
  · exact ⟨t, _, heq, mark_post hwf rfl (fun _ => rfl) (Or.inl rfl) (by omega) htn hfree
      (fun h => h)⟩
  · exact ⟨t, _, heq, mark_post hwf1 hcount1 hflags1 (Or.inr htot1) (by omega)
      (by omega) hfree hlay1⟩
  · refine ⟨s.total_size, _, heq, mark_post hwf1 hcount1 hflags1 (Or.inr htot1)
      (by omega) (by omega) ?_ hlay1⟩
    intro q h1 _
    exact get_allocated_out h1

theorem AllocPost.inv {c : Config} {s s2 : my_allocator} {n start : Nat}
    (h : AllocPost c s n start s2) (hinv : PoolInv c s) : PoolInv c s2 :=
  ⟨h.wf, by rw [h.used, h.count, hinv.used_eq]⟩

theorem get_pointer_eq {c : Config} {s : my_allocator} (h : WF c s) (hl : HeapLayout c s)
    {pos : Nat} (hp : pos < s.total_size) :
    get_pointer c s pos
      = some (c.heap (pos / c.BlockSize) + (pos % c.BlockSize) * c.sizeofT) := by
  obtain ⟨b, hb, _⟩ := h.block_at hp
  unfold get_pointer
  have hp2 : ¬ pos ≥ s.total_size := by omega
  simp only [hp2, if_false, hb, memory_block.get_element_ptr, hl _ b hb]

theorem get_position_from_eq {c : Config} (hc : ConfigOk c)
    (l : List memory_block) (idx k e : Nat)
    (hl : ∀ j b, l[j]? = some b → b.data = c.heap (idx + j))
    (hk1 : idx ≤ k) (hk2 : k < idx + l.length) (he : e < c.BlockSize)
    (hfit : k * c.BlockSize + e < SIZE_MOD) :
    get_position_from c (c.heap k + e * c.sizeofT) l idx = k * c.BlockSize + e := by
  have hsz := hc.sizeof_pos
  have hbytes : size_mul c.BlockSize c.sizeofT = c.BlockSize * c.sizeofT :=
    size_mul_eq hc.bytes_fit
  have hlt : e * c.sizeofT < c.BlockSize * c.sizeofT :=
    Nat.mul_lt_mul_of_pos_right he hsz
  induction l generalizing idx with
  | nil => simp at hk2; omega
  | cons b rest ih =>
    have hb : b.data = c.heap idx := by
      have := hl 0 b (by simp)
      simpa using this
    simp only [get_position_from, hbytes, hb]
    by_cases hik : idx = k
    · subst hik
      have h1 : c.heap idx ≤ c.heap idx + e * c.sizeofT
          ∧ c.heap idx + e * c.sizeofT < c.heap idx + c.BlockSize * c.sizeofT := by omega
      have h2 : (c.heap idx + e * c.sizeofT - c.heap idx) = e * c.sizeofT := by omega
      rw [if_pos h1, h2, Nat.mul_mod_left, if_pos rfl, Nat.mul_div_cancel _ hsz]
      have hm : idx * c.BlockSize < SIZE_MOD := by omega
      rw [size_mul_eq hm, size_add_eq hfit]
    · have hdis := hc.heap_disjoint idx k hik
      have h1 : ¬ (c.heap idx ≤ c.heap k + e * c.sizeofT
          ∧ c.heap k + e * c.sizeofT < c.heap idx + c.BlockSize * c.sizeofT) := by omega
      rw [if_neg h1]
      apply ih (idx + 1)
      · intro j b2 hj
        have := hl (j + 1) b2 (by simpa using hj)
        rw [this]; congr 1; omega
      · omega
      · simp only [List.length_cons] at hk2; omega

/-- Position to pointer to position is the identity on pools laid out on a
well-behaved heap. -/
theorem get_position_get_pointer {c : Config} {s : my_allocator} (hc : ConfigOk c)
    (h : WF c s) (hl : HeapLayout c s) (hm : s.total_size < SIZE_MOD) {pos p : Nat}
    (hp : pos < s.total_size) (hptr : get_pointer c s pos = some p) :
    get_position c s p = pos ∧ p ≠ 0 := by
  have hB := h.block_size_pos
  rw [get_pointer_eq h hl hp] at hptr
  simp only [Option.some.injEq] at hptr
  subst hptr
  have hidx : pos / c.BlockSize < s.blocks.length := by
    rw [Nat.div_lt_iff_lt_mul hB, ← h.total_eq]; exact hp
  have hdm : pos / c.BlockSize * c.BlockSize + pos % c.BlockSize = pos := by
    rw [Nat.mul_comm]; exact Nat.div_add_mod pos c.BlockSize
  constructor
  · unfold get_position
    rw [get_position_from_eq hc s.blocks 0 (pos / c.BlockSize) (pos % c.BlockSize)
      (by intro j b hj; rw [Nat.zero_add]; exact hl j b hj) (Nat.zero_le _) (by omega)
      (Nat.mod_lt _ hB) (by omega)]
    exact hdm
  · have := hc.heap_nonnull (pos / c.BlockSize)
    omega

theorem get_pointer_some {c : Config} {s : my_allocator} (h : WF c s) {pos : Nat}
    (hp : pos < s.total_size) : ∃ p, get_pointer c s pos = some p := by
  obtain ⟨b, hb, _⟩ := h.block_at hp
  refine ⟨b.get_element_ptr c (pos % c.BlockSize), ?_⟩
  unfold get_pointer
  have hp2 : ¬ pos ≥ s.total_size := by omega
  simp only [hp2, if_false, hb]

theorem allocate_of_start {c : Config} {s s2 : my_allocator} {n start p : Nat} (hn : 0 < n)
    (hs : allocate_start c s n = some (start, s2)) (hp : get_pointer c s2 start = some p) :
    allocate c s n = AllocResult.returned p s2 := by
  unfold allocate
  rw [if_neg (by omega), hs]
  simp only [hp]

/-- On a pool that satisfies the invariant `allocate(n)` returns: the search
ends, `get_pointer` does not throw, and the effect is `AllocPost`. -/
theorem allocate_spec {c : Config} {s : my_allocator} {n : Nat}
    (hinv : PoolInv c s) (hn : 0 < n) (hfit : Fits c s n) :
    ∃ start p s2, allocate_start c s n = some (start, s2)
      ∧ get_pointer c s2 start = some p
      ∧ allocate c s n = AllocResult.returned p s2
      ∧ AllocPost c s n start s2 := by
  obtain ⟨start, s2, hs, hpost⟩ := allocate_start_spec hinv hn hfit
  have hlt : start < s2.total_size := by have := hpost.in_range; omega
  obtain ⟨p, hp⟩ := get_pointer_some hpost.wf hlt
  exact ⟨start, p, s2, hs, hp, allocate_of_start hn hs hp, hpost⟩

/-- First fit: with room in the pool, the run chosen is the lowest free one. -/
theorem allocate_start_first_fit {c : Config} {s : my_allocator} {n t : Nat}
    (hinv : PoolInv c s) (hn : 0 < n) (hfit : Fits c s n)
    (hroom : s.used_size + n ≤ s.total_size) (ht : t + n ≤ s.total_size)
    (hfree : FreeRun c s n t) (hmin : ∀ t2, t2 < t → ¬ FreeRun c s n t2) :
    allocate_start c s n
      = some (t, { mark_run c true t n 0 s with used_size := s.used_size + n }) := by
  rcases allocate_start_cases hinv hn hfit with
    ⟨t1, _, _, hfree1, hmin1, heq⟩ | ⟨_, hlt, _⟩ | ⟨_, hnone, _⟩
  · have : t1 = t := by
      rcases Nat.lt_trichotomy t1 t with h | h | h
      · exact absurd hfree1 (hmin t1 h)
      · exact h
      · exact absurd hfree (hmin1 t h)
    subst this
    exact heq
  · omega
  · exact absurd hfree (hnone t ht)

/-- Without room for `n` more slots the pool grows by `growth c n`, once. -/
theorem allocate_start_full {c : Config} {s : my_allocator} {n : Nat}
    (hinv : PoolInv c s) (hn : 0 < n) (hfit : Fits c s n)
    (hfull : s.total_size < s.used_size + n) :
    ∃ t s2, allocate_start c s n = some (t, s2)
      ∧ s2.total_size = s.total_size + growth c n := by
  rcases allocate_start_cases hinv hn hfit with
    ⟨_, hroom, _⟩ | ⟨t, _, _, _, _, heq⟩ | ⟨hroom, _⟩
  · omega
  · refine ⟨t, _, heq, ?_⟩
    show (mark_run c true t n 0 (reserve c s (s.total_size + growth c n))).total_size = _
    rw [mark_run_total]
    exact (reserve_growth hinv.wf hn hfit).2.1
  · omega

/-- What `deallocate(p, n)` does when `p` addresses slot `pos` and the run
`[pos, pos + n)` lies inside the pool. -/
theorem deallocate_eq {c : Config} {s : my_allocator} {pos p n : Nat} (hc : ConfigOk c)
    (h : WF c s) (hl : HeapLayout c s) (hm : s.total_size < SIZE_MOD) (hn : 0 < n)
    (hr : pos + n ≤ s.total_size) (hptr : get_pointer c s pos = some p) :
    deallocate c s p n
      = { mark_run c false pos n 0 s with used_size := size_sub s.used_size n } := by
  obtain ⟨hpos, hp0⟩ := get_position_get_pointer hc h hl hm (by omega) hptr
  unfold deallocate
  have h1 : ¬ (p = 0 ∨ n = 0) := by omega
  have h2 : size_add pos n = pos + n := size_add_eq (by omega)
  have h3 : pos ≠ SIZE_MAX := by unfold SIZE_MAX; omega
  simp only [h1, if_false, hpos, h2, hr, h3, ne_eq, not_false_eq_true, and_self, if_true,
    mark_run_used]

/-- The freshly constructed allocator: one block, nothing in use. -/
theorem default_ctor_spec {c : Config} (hB : 0 < c.BlockSize)
    (hfit : 2 * c.BlockSize < SIZE_MOD) :
    PoolInv c (default_ctor c) ∧ (default_ctor c).total_size = c.BlockSize
      ∧ (default_ctor c).used_size = 0
      ∧ (∀ q, get_allocated c (default_ctor c) q = false)
      ∧ HeapLayout c (default_ctor c) := by
  have hwf0 : WF c { blocks := [], total_size := 0, used_size := 0 } :=
    ⟨hB, by simp, by intro b hb; simp at hb⟩
  have hgt : ({ blocks := [], total_size := 0, used_size := 0 } : my_allocator).total_size
      < c.BlockSize := hB
  have hf : c.BlockSize + c.BlockSize < SIZE_MOD := by omega
  have hwf := reserve_wf hwf0 hgt hf
  have htot := reserve_total hwf0 hgt hf
  have hcnt := reserve_count hwf0 hgt hf
  have hfl := get_allocated_reserve hwf0 hgt hf
  have hlay := reserve_layout hwf0 hgt hf (by intro j b hb; simp at hb)
  have hdiv : (c.BlockSize - 0 + c.BlockSize - 1) / c.BlockSize = 1 := by
    apply Nat.div_eq_of_lt_le <;> omega
  simp only [hdiv, Nat.one_mul, Nat.zero_add] at htot
  refine ⟨⟨hwf, ?_⟩, htot, reserve_used _ _ _, ?_, hlay⟩
  · show (default_ctor c).used_size = count_true (default_ctor c)
    unfold default_ctor
    rw [hcnt, reserve_used]
    rfl
  · intro q
    unfold default_ctor
    rw [hfl q]
    exact get_allocated_out (Nat.zero_le _)

theorem list_sum_fits_head {B n : Nat} {ns : List Nat} {T : Nat}
    (h : T + ((n :: ns).map (fun n => n + B)).sum + 2 * B ≤ SIZE_MOD) :
    T + n + 2 * B ≤ SIZE_MOD ∧ ∀ T2, T2 < T + n + B →
      T2 + (ns.map (fun n => n + B)).sum + 2 * B ≤ SIZE_MOD := by
  simp only [List.map_cons, List.sum_cons] at h
  constructor
  · omega
  · intro T2 hT2; omega

theorem alloc_runs_step {c : Config} {s s0 s1 s2 : my_allocator} {n start p : Nat}
    {ns : List Nat} {runs : List (Nat × Nat)}
    (hs : allocate_start c s n = some (start, s0))
    (hal : allocate c s n = AllocResult.returned p s1)
    (hr : alloc_runs c s1 ns = some (runs, s2)) :
    alloc_runs c s (n :: ns) = some ((start, n) :: runs, s2) := by
  simp only [alloc_runs, hs, hal, hr]

theorem alloc_runs_spec (c : Config) (ns : List Nat) (s : my_allocator)
    (hinv : PoolInv c s) (hpos : ∀ n ∈ ns, 0 < n)
    (hfit : s.total_size + (ns.map (fun n => n + c.BlockSize)).sum + 2 * c.BlockSize
      ≤ SIZE_MOD) :
    ∃ runs s2, alloc_runs c s ns = some (runs, s2) ∧ runs.map Prod.snd = ns
      ∧ (∀ r ∈ runs, FreeRun c s r.2 r.1) ∧ runs.Pairwise runs_disjoint := by
  induction ns generalizing s with
  | nil => exact ⟨[], s, rfl, rfl, by intro r hr; simp at hr, List.Pairwise.nil⟩
  | cons n ns ih =>
    have hn : 0 < n := hpos n (List.mem_cons_self _ _)
    obtain ⟨hfit1, hfit2⟩ := list_sum_fits_head hfit
    obtain ⟨start, p, s1, hs, _, hal, hpost⟩ := allocate_spec hinv hn hfit1
    have hg := growth_bounds hinv.wf.block_size_pos n
    have htot : s1.total_size < s.total_size + n + c.BlockSize := by
      rcases hpost.total_cases with h | h <;> omega
    obtain ⟨runs, s2, hruns, hmap, hfree, hpair⟩ :=
      ih s1 (hpost.inv hinv) (fun m hm => hpos m (List.mem_cons_of_mem _ hm))
        (hfit2 _ htot)
    refine ⟨(start, n) :: runs, s2, alloc_runs_step hs hal hruns, ?_, ?_, ?_⟩
    · simp only [List.map_cons, hmap]
    · intro r hr
      rcases List.mem_cons.mp hr with h | h
      · subst h; exact hpost.was_free
      · intro q h1 h2
        have hq := hfree r h q h1 h2
        rw [hpost.flags q] at hq
        by_cases hin : start ≤ q ∧ q < start + n
        · rw [if_pos hin] at hq; exact absurd hq (by simp)
        · rw [if_neg hin] at hq; exact hq
    · refine List.Pairwise.cons ?_ hpair
      intro r hr q hq
      have h1 := hfree r hr q hq.2.2.1 hq.2.2.2
      rw [hpost.flags q, if_pos ⟨hq.1, hq.2.1⟩] at h1
      exact absurd h1 (by simp)

/-- C1: for every block size `B >= 1` and every sequence of `allocate(n_i)`
calls with all `n_i > 0` on a freshly constructed allocator, with no
`deallocate` in between and sizes that fit in `size_t`, every call returns and
the slot runs `[start_i, start_i + n_i)` handed out are pairwise disjoint. -/
theorem C1_sequential_runs_disjoint (c : Config) (ns : List Nat)
    (hB : 1 ≤ c.BlockSize) (hpos : ∀ n ∈ ns, 0 < n)
    (hfit : (ns.map (fun n => n + c.BlockSize)).sum + 3 * c.BlockSize ≤ SIZE_MOD) :
    ∃ runs s, alloc_runs c (default_ctor c) ns = some (runs, s)
      ∧ runs.map Prod.snd = ns ∧ runs.Pairwise runs_disjoint := by
  obtain ⟨hinv, htot, _, _, _⟩ := default_ctor_spec (c := c) hB (by omega)
  obtain ⟨runs, s, hruns, hmap, _, hpair⟩ :=
    alloc_runs_spec c ns (default_ctor c) hinv hpos (by rw [htot]; omega)
  exact ⟨runs, s, hruns, hmap, hpair⟩

/-- Witness of C1: block size 10 and the calls `allocate(3)`, `allocate(4)`,
`allocate(5)`. -/
theorem C1_sequential_runs_disjoint_witness :
    (1 ≤ cfg10.BlockSize ∧ (∀ n ∈ [3, 4, 5], 0 < n)
      ∧ ([3, 4, 5].map (fun n => n + cfg10.BlockSize)).sum + 3 * cfg10.BlockSize ≤ SIZE_MOD)
    ∧ ∃ runs s, alloc_runs cfg10 (default_ctor cfg10) [3, 4, 5] = some (runs, s)
      ∧ runs.map Prod.snd = [3, 4, 5] ∧ runs.Pairwise runs_disjoint :=
  ⟨⟨by decide, by decide, by decide⟩,
    C1_sequential_runs_disjoint cfg10 [3, 4, 5] (by decide) (by decide) (by decide)⟩

/-- C2 (evaluation at the failing input): with `BlockSize = 10`, after
`allocate(7)` on a fresh allocator a second `allocate(7)` reserves the run
`[7, 14)`.  Its first slot lies in block 0 and its last slot in block 1, and
the pointer returned, `4124`, leaves only 3 of the 7 elements inside the
buffer of block 0, which ends at byte `4136`. -/
theorem C2_run_crosses_block_boundary :
    allocate cfg10 (default_ctor cfg10) 7 = AllocResult.returned 4096 after7
      ∧ Reachable cfg10 after7
      ∧ 0 < 7 ∧ 7 ≤ cfg10.BlockSize
      ∧ allocate_start cfg10 after7 7 = some (7, after7_7)
      ∧ allocate cfg10 after7 7 = AllocResult.returned 4124 after7_7
      ∧ 7 / cfg10.BlockSize = 0 ∧ (7 + 7 - 1) / cfg10.BlockSize = 1
      ∧ 7 / cfg10.BlockSize ≠ (7 + 7 - 1) / cfg10.BlockSize
      ∧ 4124 = cfg10.heap 0 + 7 * cfg10.sizeofT
      ∧ cfg10.heap 0 + cfg10.BlockSize * cfg10.sizeofT < 4124 + 7 * cfg10.sizeofT := by
  have hal : allocate cfg10 (default_ctor cfg10) 7 = AllocResult.returned 4096 after7 := by
    decide
  refine ⟨hal, Reachable.alloc 7 Reachable.init hal, ?_⟩
  decide

/-- C3: on every pool that satisfies the pool invariant and sits on non-null
block buffers, `allocate(n)` with `n > 0` (sizes fitting in `size_t`) returns:
the search ends, the position handed to `get_pointer` is below `total_size`
so `std::out_of_range` is not thrown, and the pointer returned is not null. -/
theorem C3_allocate_never_fails (c : Config) (s : my_allocator) (n : Nat)
    (hinv : PoolInv c s) (hlay : HeapLayout c s) (hheap : ∀ k, 0 < c.heap k)
    (hn : 0 < n) (hfit : Fits c s n) :
    ∃ start p s2, allocate_start c s n = some (start, s2)
      ∧ start < s2.total_size
      ∧ get_pointer c s2 start = some p
      ∧ allocate c s n = AllocResult.returned p s2
      ∧ p ≠ 0 := by
  obtain ⟨start, p, s2, hs, hp, hal, hpost⟩ := allocate_spec hinv hn hfit
  have hlt : start < s2.total_size := by have := hpost.in_range; omega
  refine ⟨start, p, s2, hs, hlt, hp, hal, ?_⟩
  rw [get_pointer_eq hpost.wf (hpost.layout hlay) hlt] at hp
  simp only [Option.some.injEq] at hp
  have := hheap (start / c.BlockSize)
  omega

theorem full10_inv : PoolInv cfg10 full10 :=
  ⟨⟨by decide, by decide, by decide⟩, by decide⟩

theorem full10_layout : HeapLayout cfg10 full10 := by
  intro j b hb
  cases j with
  | zero =>
    simp only [full10, List.getElem?_cons_zero, Option.some.injEq] at hb
    subst hb; rfl
  | succ j => simp [full10] at hb

theorem cfg10_heap_pos : ∀ k, 0 < cfg10.heap k := by
  intro k; simp [cfg10]

/-- Witness of C3: `allocate(4)` on a pool whose only block is full. -/
theorem C3_allocate_never_fails_witness :
    (PoolInv cfg10 full10 ∧ HeapLayout cfg10 full10 ∧ (∀ k, 0 < cfg10.heap k)
      ∧ 0 < 4 ∧ Fits cfg10 full10 4)
    ∧ ∃ start p s2, allocate_start cfg10 full10 4 = some (start, s2)
      ∧ start < s2.total_size
      ∧ get_pointer cfg10 s2 start = some p
      ∧ allocate cfg10 full10 4 = AllocResult.returned p s2
      ∧ p ≠ 0 :=
  ⟨⟨full10_inv, full10_layout, cfg10_heap_pos, by decide, by unfold Fits; decide⟩,
    C3_allocate_never_fails cfg10 full10 4 full10_inv full10_layout cfg10_heap_pos
      (by decide) (by unfold Fits; decide)⟩

/-- C7: `allocate(0)` returns the null pointer and leaves the pool unchanged;
`deallocate(p, 0)` and `deallocate(nullptr, n)` leave the pool unchanged. -/
theorem C7_zero_and_null_are_noops (c : Config) (s : my_allocator) (p n : Nat) :
    allocate c s 0 = AllocResult.returned 0 s
      ∧ deallocate c s p 0 = s
      ∧ deallocate c s 0 n = s := by
  refine ⟨?_, ?_, ?_⟩
  · unfold allocate; rw [if_pos rfl]
  · unfold deallocate; rw [if_pos (Or.inr rfl)]
  · unfold deallocate; rw [if_pos (Or.inl rfl)]

theorem deallocate_unfold (c : Config) (s : my_allocator) (p n : Nat) :
    deallocate c s p n
      = if p = 0 ∨ n = 0 then s
        else if get_position c s p ≠ SIZE_MAX ∧ size_add (get_position c s p) n ≤ s.total_size
          then { mark_run c false (get_position c s p) n 0 s
                 with used_size := size_sub s.used_size n }
          else s := by
  unfold deallocate
  simp only [mark_run_used]

theorem deallocate_total (c : Config) (s : my_allocator) (p n : Nat) :
    (deallocate c s p n).total_size = s.total_size := by
  rw [deallocate_unfold]
  split
  · rfl
  · split
    · exact mark_run_total c false _ n 0 s
    · rfl

/-- Releasing a run whose slots are all in use keeps the pool invariant. -/
theorem deallocate_used_run_inv {c : Config} {s : my_allocator} {p n : Nat}
    (hinv : PoolInv c s) (hm : s.total_size < SIZE_MOD)
    (hrel : releases_used_run c s p n) : PoolInv c (deallocate c s p n) := by
  rcases hrel with h | ⟨hr, hocc⟩
  · rw [h]; exact hinv
  · rw [deallocate_unfold]
    split
    · exact hinv
    · split
      · have hwf := mark_run_wf hinv.wf false (get_position c s p) n 0
        have hcnt := count_true_mark_run_false hinv.wf (get_position c s p) n 0
          (by omega) (by omega) (fun q h1 h2 => hocc q (by omega) (by omega))
        refine ⟨⟨hwf.block_size_pos, hwf.total_eq, hwf.block_len⟩, ?_⟩
        show size_sub s.used_size n
          = count_true (mark_run c false (get_position c s p) n 0 s)
        have hle := count_true_le hinv.wf
        rw [size_sub_eq (by rw [hinv.used_eq]; omega)
          (by rw [hinv.used_eq]; omega), hinv.used_eq]
        omega
      · exact hinv

theorem reachableUsed_inv {c : Config} (hB : 1 ≤ c.BlockSize)
    (hfit : 2 * c.BlockSize < SIZE_MOD) {s : my_allocator} (hr : ReachableUsed c s) :
    PoolInv c s ∧ s.total_size < SIZE_MOD := by
  induction hr with
  | init =>
    obtain ⟨hinv, htot, _⟩ := default_ctor_spec (c := c) hB hfit
    exact ⟨hinv, by omega⟩
  | @alloc s s2 p n _ hf hal ih =>
    by_cases hn : n = 0
    · subst hn
      unfold allocate at hal
      rw [if_pos rfl] at hal
      injection hal with _ h2
      subst h2
      exact ih
    · obtain ⟨start, p2, s3, _, _, hal2, hpost⟩ := allocate_spec ih.1 (Nat.pos_of_ne_zero hn) hf
      rw [hal2] at hal
      injection hal with _ h2
      subst h2
      exact ⟨hpost.inv ih.1, by have := hpost.total_lt; omega⟩
  | @dealloc s p n _ hrel ih =>
    exact ⟨deallocate_used_run_inv ih.1 ih.2 hrel, by rw [deallocate_total]; exact ih.2⟩

/-- C4 (counterexample): with `BlockSize = 10`, the calls `p = allocate(2)`
and `deallocate(p, 3)` on a fresh allocator reach a state with no flag set in
which `used_size` is `2 ^ 64 - 1`, above `total_size = 10`. -/
theorem C4_counterexample :
    allocate cfg10 (default_ctor cfg10) 2 = AllocResult.returned 4096 after2
      ∧ Reachable cfg10 (deallocate cfg10 after2 4096 3)
      ∧ (deallocate cfg10 after2 4096 3).used_size = 18446744073709551615
      ∧ count_true (deallocate cfg10 after2 4096 3) = 0
      ∧ (deallocate cfg10 after2 4096 3).total_size = 10
      ∧ ¬ ((deallocate cfg10 after2 4096 3).used_size
              = count_true (deallocate cfg10 after2 4096 3)
            ∧ (deallocate cfg10 after2 4096 3).used_size
              ≤ (deallocate cfg10 after2 4096 3).total_size) := by
  have hal : allocate cfg10 (default_ctor cfg10) 2 = AllocResult.returned 4096 after2 := by
    decide
  refine ⟨hal, Reachable.dealloc 4096 3 (Reachable.alloc 2 Reachable.init hal), ?_⟩
  decide

/-- C4 (amended): in every state reachable from a freshly constructed allocator
by calls of `allocate` (sizes fitting in `size_t`) and by calls of `deallocate`
that either change nothing or release a run whose slots are all in use,
`used_size` is the number of `true` flags and `used_size <= total_size`. -/
theorem C4_used_size_counts_flags (c : Config) (s : my_allocator)
    (hB : 1 ≤ c.BlockSize) (hfit : 2 * c.BlockSize < SIZE_MOD)
    (hr : ReachableUsed c s) :
    s.used_size = count_true s ∧ s.used_size ≤ s.total_size := by
  have hinv := (reachableUsed_inv hB hfit hr).1
  exact ⟨hinv.used_eq, by rw [hinv.used_eq]; exact count_true_le hinv.wf⟩

theorem allocate3_fresh :
    allocate cfg10 (default_ctor cfg10) 3 = AllocResult.returned 4096 after3 := by decide

theorem after3_release : releases_used_run cfg10 after3 4096 3 := by
  have hp : get_position cfg10 after3 4096 = 0 := by decide
  refine Or.inr ⟨by rw [hp]; decide, ?_⟩
  intro q h1 h2
  rw [hp] at h1 h2
  have hq : q < 3 := by omega
  interval_cases q <;> decide

/-- Witness of C4 (amended): the state after `p = allocate(3)`,
`deallocate(p, 3)` on a fresh allocator with `BlockSize = 10`. -/
theorem C4_used_size_counts_flags_witness :
    (1 ≤ cfg10.BlockSize ∧ 2 * cfg10.BlockSize < SIZE_MOD
      ∧ ReachableUsed cfg10 (deallocate cfg10 after3 4096 3))
    ∧ (deallocate cfg10 after3 4096 3).used_size = count_true (deallocate cfg10 after3 4096 3)
    ∧ (deallocate cfg10 after3 4096 3).used_size ≤ (deallocate cfg10 after3 4096 3).total_size :=
  have hr : ReachableUsed cfg10 (deallocate cfg10 after3 4096 3) :=
    ReachableUsed.dealloc 4096 3
      (ReachableUsed.alloc 3 ReachableUsed.init (by unfold Fits; decide) allocate3_fresh)
      after3_release
  ⟨⟨by decide, by decide, hr⟩,
    C4_used_size_counts_flags cfg10 _ (by decide) (by decide) hr⟩

/-- Effect of `deallocate(p, n)` when `p` is the address of slot `pos` and the
run `[pos, pos + n)` lies inside the pool. -/
theorem deallocate_spec {c : Config} {s : my_allocator} {pos p n : Nat} (hc : ConfigOk c)
    (h : WF c s) (hl : HeapLayout c s) (hm : s.total_size < SIZE_MOD) (hn : 0 < n)
    (hr : pos + n ≤ s.total_size) (hptr : get_pointer c s pos = some p) :
    WF c (deallocate c s p n) ∧ HeapLayout c (deallocate c s p n)
      ∧ (deallocate c s p n).total_size = s.total_size
      ∧ (deallocate c s p n).blocks.length = s.blocks.length
      ∧ (deallocate c s p n).used_size = size_sub s.used_size n
      ∧ (∀ q, get_allocated c (deallocate c s p n) q
          = if pos ≤ q ∧ q < pos + n then false else get_allocated c s q)
      ∧ get_pointer c (deallocate c s p n) pos = some p
      ∧ ((∀ q, pos ≤ q → q < pos + n → get_allocated c s q = true)
          → count_true (deallocate c s p n) + n = count_true s) := by
  rw [deallocate_eq hc h hl hm hn hr hptr]
  have hwf := mark_run_wf h false pos n 0
  have hwf2 : WF c { mark_run c false pos n 0 s with used_size := size_sub s.used_size n } :=
    ⟨hwf.block_size_pos, hwf.total_eq, hwf.block_len⟩
  have hlay : HeapLayout c
      { mark_run c false pos n 0 s with used_size := size_sub s.used_size n } :=
    mark_run_layout false pos n 0 hl
  have htot := mark_run_total c false pos n 0 s
  refine ⟨hwf2, hlay, htot, mark_run_length c false pos n 0 s, rfl, ?_, ?_, ?_⟩
  · intro q
    show get_allocated c (mark_run c false pos n 0 s) q = _
    rw [get_allocated_mark_run h false pos n 0 (by omega)]
    by_cases hq : pos ≤ q ∧ q < pos + n
    · rw [if_pos hq, if_pos (by omega)]
    · rw [if_neg hq, if_neg (by omega)]
  · rw [get_pointer_eq hwf2 hlay (show pos < _ by rw [htot]; omega)]
    rw [get_pointer_eq h hl (by omega)] at hptr
    exact hptr
  · intro hocc
    exact count_true_mark_run_false h pos n 0 (by omega) (by omega)
      (fun q h1 h2 => hocc q (by omega) (by omega))

/-- C5 (counterexample): with `BlockSize = 10`, on a fresh allocator (a valid
pool) after `p = allocate(3)` and `deallocate(p, 3)` the value of `used_size`
is 0; the second `deallocate(p, 3)` changes it to `2 ^ 64 - 3`. -/
theorem C5_counterexample :
    PoolInv cfg10 (default_ctor cfg10)
      ∧ allocate cfg10 (default_ctor cfg10) 3 = AllocResult.returned 4096 after3
      ∧ (deallocate cfg10 after3 4096 3).used_size = 0
      ∧ (deallocate cfg10 (deallocate cfg10 after3 4096 3) 4096 3).used_size
          = 18446744073709551613
      ∧ (deallocate cfg10 (deallocate cfg10 after3 4096 3) 4096 3).used_size
          ≠ (deallocate cfg10 after3 4096 3).used_size := by
  refine ⟨(default_ctor_spec (c := cfg10) (by decide) (by decide)).1, ?_⟩
  decide

/-- C5 (amended): on a valid pool, after `p = allocate(n)` with `n > 0` and
`deallocate(p, n)`, a second `deallocate(p, n)` leaves `total_size`, the number
of blocks and every occupancy flag unchanged, and subtracts `n` from
`used_size` once more, modulo `2 ^ 64`. -/
theorem C5_double_free_effect (c : Config) (s : my_allocator) (n : Nat)
    (hc : ConfigOk c) (hinv : PoolInv c s) (hlay : HeapLayout c s)
    (hn : 0 < n) (hfit : Fits c s n) :
    ∃ p s1, allocate c s n = AllocResult.returned p s1
      ∧ (deallocate c (deallocate c s1 p n) p n).total_size
          = (deallocate c s1 p n).total_size
      ∧ (deallocate c (deallocate c s1 p n) p n).blocks.length
          = (deallocate c s1 p n).blocks.length
      ∧ (∀ q, get_allocated c (deallocate c (deallocate c s1 p n) p n) q
          = get_allocated c (deallocate c s1 p n) q)
      ∧ (deallocate c (deallocate c s1 p n) p n).used_size
          = size_sub (deallocate c s1 p n).used_size n := by
  obtain ⟨start, p, s1, _, hp, hal, hpost⟩ := allocate_spec hinv hn hfit
  have hm1 : s1.total_size < SIZE_MOD := by have := hpost.total_lt; omega
  obtain ⟨hwf2, hlay2, htot2, _, _, hfl2, hp2, _⟩ :=
    deallocate_spec hc hpost.wf (hpost.layout hlay) hm1 hn hpost.in_range hp
  obtain ⟨_, _, htot3, hlen3, hused3, hfl3, _, _⟩ :=
    deallocate_spec hc hwf2 hlay2 (by rw [htot2]; exact hm1) hn
      (by rw [htot2]; exact hpost.in_range) hp2
  refine ⟨p, s1, hal, htot3, hlen3, ?_, hused3⟩
  intro q
  rw [hfl3 q]
  by_cases hq : start ≤ q ∧ q < start + n
  · rw [if_pos hq, hfl2 q, if_pos hq]
  · rw [if_neg hq]

theorem cfg10_ok : ConfigOk cfg10 where
  sizeof_pos := by decide
  bytes_fit := by decide
  heap_nonnull := cfg10_heap_pos
  heap_disjoint := by
    intro i j hij
    simp only [cfg10]
    omega

theorem after3_inv : PoolInv cfg10 after3 :=
  ⟨⟨by decide, by decide, by decide⟩, by decide⟩

theorem after3_layout : HeapLayout cfg10 after3 := by
  intro j b hb
  cases j with
  | zero =>
    simp only [after3, List.getElem?_cons_zero, Option.some.injEq] at hb
    subst hb; rfl
  | succ j => simp [after3] at hb

/-- Witness of C5 (amended): `n = 4` on the pool `after3`. -/
theorem C5_double_free_effect_witness :
    (ConfigOk cfg10 ∧ PoolInv cfg10 after3 ∧ HeapLayout cfg10 after3 ∧ 0 < 4
      ∧ Fits cfg10 after3 4)
    ∧ ∃ p s1, allocate cfg10 after3 4 = AllocResult.returned p s1
      ∧ (deallocate cfg10 (deallocate cfg10 s1 p 4) p 4).total_size
          = (deallocate cfg10 s1 p 4).total_size
      ∧ (deallocate cfg10 (deallocate cfg10 s1 p 4) p 4).blocks.length
          = (deallocate cfg10 s1 p 4).blocks.length
      ∧ (∀ q, get_allocated cfg10 (deallocate cfg10 (deallocate cfg10 s1 p 4) p 4) q
          = get_allocated cfg10 (deallocate cfg10 s1 p 4) q)
      ∧ (deallocate cfg10 (deallocate cfg10 s1 p 4) p 4).used_size
          = size_sub (deallocate cfg10 s1 p 4).used_size 4 :=
  ⟨⟨cfg10_ok, after3_inv, after3_layout, by decide, by unfold Fits; decide⟩,
    C5_double_free_effect cfg10 after3 4 cfg10_ok after3_inv after3_layout (by decide)
      (by unfold Fits; decide)⟩

theorem get_position_from_unmappable (c : Config) (p : Nat) (l : List memory_block)
    (idx : Nat)
    (h : ∀ b ∈ l, ¬ (b.data ≤ p ∧ p < b.data + size_mul c.BlockSize c.sizeofT)
      ∨ (p - b.data) % c.sizeofT ≠ 0) :
    get_position_from c p l idx = SIZE_MAX := by
  induction l generalizing idx with
  | nil => rfl
  | cons b rest ih =>
    have hrest := ih (idx + 1) (fun x hx => h x (List.mem_cons_of_mem _ hx))
    simp only [get_position_from]
    rcases h b (List.mem_cons_self _ _) with h1 | h1
    · rw [if_neg h1]; exact hrest
    · split <;> exact hrest

/-- A `deallocate(p, n)` whose pointer `get_position` cannot map, or whose run
`[pos, pos + n)` ends beyond `total_size` and below `2 ^ 64`, leaves the pool
unchanged. -/
theorem deallocate_rejected (c : Config) (s : my_allocator) (p n : Nat)
    (h : unmappable c s p
      ∨ (s.total_size < get_position c s p + n ∧ get_position c s p + n < SIZE_MOD)) :
    deallocate c s p n = s := by
  rw [deallocate_unfold]
  split
  · rfl
  · rcases h with h | ⟨h1, h2⟩
    · have hpos : get_position c s p = SIZE_MAX :=
        get_position_from_unmappable c p s.blocks 0 h
      rw [if_neg (by rw [hpos]; simp)]
    · rw [size_add_eq h2, if_neg (by omega)]

/-- What `deallocate(p, n)` does once its guard has passed, whether or not the
sum `pos + n` wrapped. -/
theorem deallocate_of_guard {c : Config} {s : my_allocator} {p n pos : Nat}
    (hpos : get_position c s p = pos) (hp : p ≠ 0) (hn : n ≠ 0) (hne : pos ≠ SIZE_MAX)
    (hguard : size_add pos n ≤ s.total_size) :
    deallocate c s p n
      = { mark_run c false pos n 0 s with used_size := size_sub s.used_size n } := by
  rw [deallocate_unfold, if_neg (by omega), hpos, if_pos ⟨hne, hguard⟩]

theorem deallocate_used_of_guard {c : Config} {s : my_allocator} {p n pos : Nat}
    (hpos : get_position c s p = pos) (hp : p ≠ 0) (hn : n ≠ 0) (hne : pos ≠ SIZE_MAX)
    (hguard : size_add pos n ≤ s.total_size) :
    (deallocate c s p n).used_size = size_sub s.used_size n := by
  rw [deallocate_of_guard hpos hp hn hne hguard]

theorem deallocate_flag_of_guard {c : Config} {s : my_allocator} {p n pos : Nat}
    (h : WF c s) (hpos : get_position c s p = pos) (hp : p ≠ 0) (hn : n ≠ 0)
    (hne : pos ≠ SIZE_MAX) (hguard : size_add pos n ≤ s.total_size)
    (hr : pos + n ≤ SIZE_MOD) (q : Nat) (hq1 : pos ≤ q) (hq2 : q < pos + n)
    (hq3 : q < s.total_size) :
    get_allocated c (deallocate c s p n) q = false := by
  rw [deallocate_of_guard hpos hp hn hne hguard]
  show get_allocated c (mark_run c false pos n 0 s) q = false
  rw [get_allocated_mark_run h false pos n 0 (by omega) q, if_pos (by omega)]

/-- C6 (evaluation at the failing input): `BlockSize = 10`, `sizeof(T) = 4`,
the pool `full10` left by `allocate(10)` on a fresh allocator, and the call
`deallocate(p, n)` with `p = 4100`, the address of slot 1, and
`n = 2 ^ 64 - 1`.  The run `[1, 2 ^ 64)` exceeds `total_size = 10`, but
`pos + n` wraps to 0 and passes the guard: the flag of slot 1 is cleared and
`used_size` changes from 10 to 11. -/
theorem C6_guard_wraps_around :
    allocate cfg10 (default_ctor cfg10) 10 = AllocResult.returned 4096 full10
      ∧ get_position cfg10 full10 4100 = 1
      ∧ full10.total_size < 1 + 18446744073709551615
      ∧ size_add 1 18446744073709551615 = 0
      ∧ get_allocated cfg10 full10 1 = true
      ∧ get_allocated cfg10 (deallocate cfg10 full10 4100 18446744073709551615) 1 = false
      ∧ full10.used_size = 10
      ∧ (deallocate cfg10 full10 4100 18446744073709551615).used_size = 11 := by
  have hpos : get_position cfg10 full10 4100 = 1 := by decide
  have hguard : size_add 1 18446744073709551615 ≤ full10.total_size := by decide
  have hne : (1 : Nat) ≠ SIZE_MAX := by decide
  have hused := deallocate_used_of_guard (n := 18446744073709551615) hpos (by decide)
    (by decide) hne hguard
  have hsub : size_sub full10.used_size 18446744073709551615 = 11 := by decide
  rw [hsub] at hused
  have hflag := deallocate_flag_of_guard (n := 18446744073709551615) full10_inv.wf hpos
    (by decide) (by decide) hne hguard (by decide) 1 (by decide) (by decide) (by decide)
  exact ⟨by decide, hpos, by decide, by decide, by decide, hflag, rfl, hused⟩

/-- C8: on a valid pool, `p = allocate(n)` with `n > 0` followed at once by
`deallocate(p, n)` restores `used_size`, gives every slot that existed before
its original flag, and leaves every slot added by growth free. -/
theorem C8_allocate_then_deallocate (c : Config) (s : my_allocator) (n : Nat)
    (hc : ConfigOk c) (hinv : PoolInv c s) (hlay : HeapLayout c s)
    (hn : 0 < n) (hfit : Fits c s n) :
    ∃ p s1, allocate c s n = AllocResult.returned p s1
      ∧ (deallocate c s1 p n).used_size = s.used_size
      ∧ (∀ q, q < s.total_size
          → get_allocated c (deallocate c s1 p n) q = get_allocated c s q)
      ∧ (∀ q, s.total_size ≤ q → q < (deallocate c s1 p n).total_size
          → get_allocated c (deallocate c s1 p n) q = false) := by
  obtain ⟨start, p, s1, _, hp, hal, hpost⟩ := allocate_spec hinv hn hfit
  have hm1 : s1.total_size < SIZE_MOD := by have := hpost.total_lt; omega
  obtain ⟨_, _, _, _, hused2, hfl2, _, _⟩ :=
    deallocate_spec hc hpost.wf (hpost.layout hlay) hm1 hn hpost.in_range hp
  have hfl : ∀ q, get_allocated c (deallocate c s1 p n) q = get_allocated c s q := by
    intro q
    rw [hfl2 q]
    by_cases hq : start ≤ q ∧ q < start + n
    · rw [if_pos hq]; exact (hpost.was_free q hq.1 hq.2).symm
    · rw [if_neg hq, hpost.flags q, if_neg hq]
  refine ⟨p, s1, hal, ?_, fun q _ => hfl q, ?_⟩
  · have hle := count_true_le hinv.wf
    have hB := hinv.wf.block_size_pos
    unfold Fits at hfit
    rw [hused2, hpost.used, size_sub_eq (by omega) (by rw [hinv.used_eq]; omega)]
    omega
  · intro q hq _
    rw [hfl q]
    exact get_allocated_out hq

/-- Witness of C8: `n = 9` on the pool `after3`, which has to grow. -/
theorem C8_allocate_then_deallocate_witness :
    (ConfigOk cfg10 ∧ PoolInv cfg10 after3 ∧ HeapLayout cfg10 after3 ∧ 0 < 9
      ∧ Fits cfg10 after3 9)
    ∧ ∃ p s1, allocate cfg10 after3 9 = AllocResult.returned p s1
      ∧ (deallocate cfg10 s1 p 9).used_size = after3.used_size
      ∧ (∀ q, q < after3.total_size
          → get_allocated cfg10 (deallocate cfg10 s1 p 9) q = get_allocated cfg10 after3 q)
      ∧ (∀ q, after3.total_size ≤ q → q < (deallocate cfg10 s1 p 9).total_size
          → get_allocated cfg10 (deallocate cfg10 s1 p 9) q = false) :=
  ⟨⟨cfg10_ok, after3_inv, after3_layout, by decide, by unfold Fits; decide⟩,
    C8_allocate_then_deallocate cfg10 after3 9 cfg10_ok after3_inv after3_layout (by decide)
      (by unfold Fits; decide)⟩

/-- With room for `n` slots and a free run inside the pool, `allocate(n)`
does not grow the pool and returns the lowest free run. -/
theorem allocate_no_growth {c : Config} {s : my_allocator} {n t : Nat}
    (hinv : PoolInv c s) (hn : 0 < n) (hfit : Fits c s n)
    (hroom : s.used_size + n ≤ s.total_size) (ht : t + n ≤ s.total_size)
    (hfree : FreeRun c s n t) :
    ∃ start p s2, allocate_start c s n = some (start, s2)
      ∧ get_pointer c s2 start = some p
      ∧ allocate c s n = AllocResult.returned p s2
      ∧ AllocPost c s n start s2
      ∧ s2.total_size = s.total_size
      ∧ start ≤ t ∧ ∀ t2, t2 < start → ¬ FreeRun c s n t2 := by
  have hfit2 := hfit
  unfold Fits at hfit2
  have hB := hinv.wf.block_size_pos
  rcases allocate_start_cases hinv hn hfit with
    ⟨t1, _, htn, hfree1, hmin1, heq⟩ | ⟨_, hlt, _⟩ | ⟨_, hnone, _⟩
  · have hpost := mark_post (n := n) hinv.wf (rfl : count_true s = count_true s)
      (fun _ => rfl) (Or.inl rfl) (by omega) htn hfree1 (fun h => h)
    have hlt : t1 < ({ mark_run c true t1 n 0 s with used_size := s.used_size + n }
        : my_allocator).total_size := by
      have := hpost.in_range; omega
    obtain ⟨p, hp⟩ := get_pointer_some hpost.wf hlt
    refine ⟨t1, p, _, heq, hp, allocate_of_start hn heq hp, hpost,
      mark_run_total c true t1 n 0 s, ?_, hmin1⟩
    rcases Nat.lt_or_ge t t1 with h | h
    · exact absurd hfree (hmin1 t h)
    · exact h
  · omega
  · exact absurd hfree (hnone t ht)

/-- C9: for `a, b > 0` with `a + b <= BlockSize`, on a freshly constructed
allocator the calls `p1 = allocate(a)`, `p2 = allocate(b)`,
`deallocate(p1, a)`, `p3 = allocate(a)` all return, the first and the last
run both start at position 0, `p3 == p1`, and `total_size` is still
`BlockSize`. -/
theorem C9_freed_run_is_reused (c : Config) (a b : Nat) (hc : ConfigOk c)
    (ha : 0 < a) (hb : 0 < b) (hab : a + b ≤ c.BlockSize)
    (hfit : 4 * c.BlockSize ≤ SIZE_MOD) :
    ∃ p1 s1 p2 s2 p3 s4,
      allocate_start c (default_ctor c) a = some (0, s1)
      ∧ allocate c (default_ctor c) a = AllocResult.returned p1 s1
      ∧ allocate c s1 b = AllocResult.returned p2 s2
      ∧ allocate_start c (deallocate c s2 p1 a) a = some (0, s4)
      ∧ allocate c (deallocate c s2 p1 a) a = AllocResult.returned p3 s4
      ∧ p3 = p1
      ∧ s4.total_size = c.BlockSize := by
  have hB : 0 < c.BlockSize := by omega
  obtain ⟨hinv0, htot0, hused0, hfl0, hlay0⟩ := default_ctor_spec (c := c) hB (by omega)
  -- first call
  obtain ⟨t1, p1, s1, hs1, hp1, hal1, hpost1, htot1, ht1, _⟩ :=
    allocate_no_growth (t := 0) hinv0 ha (by unfold Fits; omega) (by omega) (by omega)
      (fun q _ _ => hfl0 q)
  have ht10 : t1 = 0 := by omega
  subst ht10
  have hinv1 := hpost1.inv hinv0
  have hlay1 := hpost1.layout hlay0
  have hfl1 : ∀ q, get_allocated c s1 q = if q < a then true else false := by
    intro q
    rw [hpost1.flags q, hfl0 q]
    by_cases hq : q < a
    · rw [if_pos (by omega), if_pos hq]
    · rw [if_neg (by omega), if_neg hq]
  -- second call
  obtain ⟨t2, p2, s2, _, _, hal2, hpost2, htot2, _, _⟩ :=
    allocate_no_growth (t := a) hinv1 hb (by unfold Fits; omega)
      (by rw [hpost1.used]; omega) (by omega)
      (fun q h1 _ => by rw [hfl1 q, if_neg (by omega)])
  have hinv2 := hpost2.inv hinv1
  have hlay2 := hpost2.layout hlay1
  have hocc2 : ∀ q, 0 ≤ q → q < 0 + a → get_allocated c s2 q = true := by
    intro q _ hq
    have hq2 : q < a := by omega
    rw [hpost2.flags q, hfl1 q]
    simp only [hq2, if_true, ite_self]
  -- the pointer of the first run still addresses slot 0
  have hp1b : get_pointer c s2 0 = some p1 := by
    rw [get_pointer_eq hinv2.wf hlay2 (by omega)]
    rw [get_pointer_eq hinv1.wf hlay1 (by omega)] at hp1
    exact hp1
  obtain ⟨hwf3, hlay3, htot3, _, hused3, hfl3, hp3, hcnt3⟩ :=
    deallocate_spec hc hinv2.wf hlay2 (by omega) ha (by omega) hp1b
  have hcnt3b := hcnt3 hocc2
  have hused3b : (deallocate c s2 p1 a).used_size = b := by
    rw [hused3, hpost2.used, hpost1.used, hused0,
      size_sub_eq (by omega) (by omega)]
    omega
  have hinv3 : PoolInv c (deallocate c s2 p1 a) := by
    refine ⟨hwf3, ?_⟩
    have h1 := hinv2.used_eq
    rw [hpost2.used, hpost1.used, hused0] at h1
    omega
  -- last call
  obtain ⟨t4, p3, s4, hs4, hp4, hal4, hpost4, htot4, ht4, _⟩ :=
    allocate_no_growth (t := 0) hinv3 ha (by unfold Fits; omega) (by omega) (by omega)
      (fun q h1 h2 => by rw [hfl3 q, if_pos ⟨h1, h2⟩])
  have ht40 : t4 = 0 := by omega
  subst ht40
  refine ⟨p1, s1, p2, s2, p3, s4, hs1, hal1, hal2, hs4, hal4, ?_, by omega⟩
  rw [get_pointer_eq hpost4.wf (hpost4.layout hlay3) (by omega)] at hp4
  rw [get_pointer_eq hwf3 hlay3 (by omega)] at hp3
  rw [hp3] at hp4
  exact (Option.some.inj hp4).symm

/-- Witness of C9: `BlockSize = 10`, `a = 3`, `b = 4`. -/
theorem C9_freed_run_is_reused_witness :
    (ConfigOk cfg10 ∧ 0 < 3 ∧ 0 < 4 ∧ 3 + 4 ≤ cfg10.BlockSize
      ∧ 4 * cfg10.BlockSize ≤ SIZE_MOD)
    ∧ ∃ p1 s1 p2 s2 p3 s4,
      allocate_start cfg10 (default_ctor cfg10) 3 = some (0, s1)
      ∧ allocate cfg10 (default_ctor cfg10) 3 = AllocResult.returned p1 s1
      ∧ allocate cfg10 s1 4 = AllocResult.returned p2 s2
      ∧ allocate_start cfg10 (deallocate cfg10 s2 p1 3) 3 = some (0, s4)
      ∧ allocate cfg10 (deallocate cfg10 s2 p1 3) 3 = AllocResult.returned p3 s4
      ∧ p3 = p1
      ∧ s4.total_size = cfg10.BlockSize :=
  ⟨⟨cfg10_ok, by decide, by decide, by decide, by decide⟩,
    C9_freed_run_is_reused cfg10 3 4 cfg10_ok (by decide) (by decide) (by decide)
      (by decide)⟩

/-- Repeated `allocate(1)` on a one-block pool whose first `j` slots are in
use takes the slots `j, j + 1, ...` in turn and does not grow the pool. -/
theorem alloc_ones (c : Config) (hfit : 3 * c.BlockSize < SIZE_MOD) (k j : Nat)
    (s : my_allocator) (hinv : PoolInv c s) (htot : s.total_size = c.BlockSize)
    (hused : s.used_size = j)
    (hfl : ∀ q, get_allocated c s q = if q < j then true else false)
    (hjk : j + k ≤ c.BlockSize) :
    ∃ runs s2, alloc_runs c s (List.replicate k 1) = some (runs, s2)
      ∧ PoolInv c s2 ∧ s2.total_size = c.BlockSize ∧ s2.used_size = j + k
      ∧ ∀ q, get_allocated c s2 q = if q < j + k then true else false := by
  induction k generalizing j s with
  | zero => exact ⟨[], s, rfl, hinv, htot, hused, hfl⟩
  | succ k ih =>
    obtain ⟨start, p, s1, hs, _, hal, hpost, htot1, hle, _⟩ :=
      allocate_no_growth (t := j) hinv (Nat.one_pos) (by unfold Fits; omega)
        (by omega) (by omega)
        (fun q h1 h2 => by rw [hfl q, if_neg (by omega)])
    have hstart : start = j := by
      have h1 := hpost.was_free start (Nat.le_refl _) (by omega)
      rw [hfl start] at h1
      by_cases hlt : start < j
      · rw [if_pos hlt] at h1; exact absurd h1 (by simp)
      · omega
    subst hstart
    obtain ⟨runs, s2, hruns, hinv2, htot2, hused2, hfl2⟩ :=
      ih (start + 1) s1 (hpost.inv hinv) (by rw [htot1, htot])
        (by rw [hpost.used, hused])
        (by
          intro q
          rw [hpost.flags q, hfl q]
          by_cases h1 : q < start
          · have h2 : q < start + 1 := by omega
            have h3 : ¬ (start ≤ q ∧ q < start + 1) := by omega
            rw [if_neg h3, if_pos h1, if_pos h2]
          · by_cases h2 : q = start
            · have h3 : start ≤ q ∧ q < start + 1 := by omega
              have h4 : q < start + 1 := by omega
              rw [if_pos h3, if_pos h4]
            · have h3 : ¬ (start ≤ q ∧ q < start + 1) := by omega
              have h4 : ¬ q < start + 1 := by omega
              rw [if_neg h3, if_neg h1, if_neg h4])
        (by omega)
    refine ⟨(start, 1) :: runs, s2, ?_, hinv2, htot2, by omega, ?_⟩
    · rw [List.replicate_succ]
      exact alloc_runs_step hs hal hruns
    · intro q
      rw [hfl2 q]
      by_cases h1 : q < start + 1 + k
      · rw [if_pos h1, if_pos (by omega)]
      · rw [if_neg h1, if_neg (by omega)]

/-- C10: for every block size `B >= 1`, `B` consecutive `allocate(1)` calls on
a freshly constructed allocator all return and leave `total_size == B`,
`used_size == B` and every slot of the block in use; one further
`allocate(1)` returns with `total_size == 2 * B`. -/
theorem C10_fill_one_block_then_grow (c : Config) (hB : 1 ≤ c.BlockSize)
    (hfit : 3 * c.BlockSize < SIZE_MOD) :
    ∃ runs s, alloc_runs c (default_ctor c) (List.replicate c.BlockSize 1) = some (runs, s)
      ∧ s.total_size = c.BlockSize ∧ s.used_size = c.BlockSize
      ∧ (∀ q, q < c.BlockSize → get_allocated c s q = true)
      ∧ ∃ p s2, allocate c s 1 = AllocResult.returned p s2
          ∧ s2.total_size = 2 * c.BlockSize := by
  obtain ⟨hinv0, htot0, hused0, hfl0, _⟩ := default_ctor_spec (c := c) hB (by omega)
  obtain ⟨runs, s, hruns, hinv, htot, hused, hfl⟩ :=
    alloc_ones c hfit c.BlockSize 0 (default_ctor c) hinv0 htot0 hused0
      (fun q => by rw [hfl0 q, if_neg (Nat.not_lt_zero q)]) (by omega)
  refine ⟨runs, s, hruns, htot, by omega,
    fun q hq => by rw [hfl q, if_pos (by omega)], ?_⟩
  have hf : Fits c s 1 := by unfold Fits; omega
  obtain ⟨start, p, s2, hs, _, hal, _⟩ := allocate_spec hinv Nat.one_pos hf
  obtain ⟨t, s3, hs3, htot3⟩ := allocate_start_full hinv Nat.one_pos hf (by omega)
  rw [hs] at hs3
  injection hs3 with h
  injection h with _ h2
  subst h2
  refine ⟨p, s2, hal, ?_⟩
  have hg : growth c 1 = c.BlockSize := by
    unfold growth
    rw [Nat.add_comm 1, Nat.add_sub_cancel, Nat.div_self hB, Nat.one_mul]
  rw [htot3, hg, htot]
  omega

/-- Witness of C10: `BlockSize = 10`, ten calls and an eleventh. -/
theorem C10_fill_one_block_then_grow_witness :
    (1 ≤ cfg10.BlockSize ∧ 3 * cfg10.BlockSize < SIZE_MOD)
    ∧ ∃ runs s,
        alloc_runs cfg10 (default_ctor cfg10) (List.replicate cfg10.BlockSize 1)
          = some (runs, s)
        ∧ s.total_size = cfg10.BlockSize ∧ s.used_size = cfg10.BlockSize
        ∧ (∀ q, q < cfg10.BlockSize → get_allocated cfg10 s q = true)
        ∧ ∃ p s2, allocate cfg10 s 1 = AllocResult.returned p s2
            ∧ s2.total_size = 2 * cfg10.BlockSize :=
  ⟨⟨by decide, by decide⟩, C10_fill_one_block_then_grow cfg10 (by decide) (by decide)⟩

/-- C12: an instance produced by the default constructor or by the converting
constructor from any source instance has `total_size == BlockSize`,
`used_size == 0` and no occupancy flag set, whatever the source holds, and the
source instance is left as it was. -/
theorem C12_fresh_instance_is_empty (c : Config) (other : my_allocator)
    (hfit : 2 * c.BlockSize < SIZE_MOD) :
    ((default_ctor c).total_size = c.BlockSize ∧ (default_ctor c).used_size = 0
        ∧ count_true (default_ctor c) = 0
        ∧ ∀ q, get_allocated c (default_ctor c) q = false)
      ∧ (converting_ctor c other).1 = default_ctor c
      ∧ (converting_ctor c other).2 = other := by
  refine ⟨?_, rfl, rfl⟩
  by_cases hB : 0 < c.BlockSize
  · obtain ⟨hinv, htot, hused, hfl, _⟩ := default_ctor_spec (c := c) hB hfit
    exact ⟨htot, hused, by rw [← hinv.used_eq, hused], hfl⟩
  · have h0 : c.BlockSize = 0 := by omega
    have hd : default_ctor c = { blocks := [], total_size := 0, used_size := 0 } := by
      unfold default_ctor
      exact reserve_le (by rw [h0])
    rw [hd, h0]
    exact ⟨rfl, rfl, rfl, fun q => get_allocated_out (Nat.zero_le _)⟩

/-- Witness of C12: `BlockSize = 10` and the pool `after7_7` as source. -/
theorem C12_fresh_instance_is_empty_witness :
    2 * cfg10.BlockSize < SIZE_MOD
    ∧ ((default_ctor cfg10).total_size = cfg10.BlockSize ∧ (default_ctor cfg10).used_size = 0
        ∧ count_true (default_ctor cfg10) = 0
        ∧ ∀ q, get_allocated cfg10 (default_ctor cfg10) q = false)
      ∧ (converting_ctor cfg10 after7_7).1 = default_ctor cfg10
      ∧ (converting_ctor cfg10 after7_7).2 = after7_7 :=
  ⟨by decide, C12_fresh_instance_is_empty cfg10 after7_7 (by decide)⟩

theorem wf_with_used {c : Config} {s : my_allocator} (h : WF c s) (u : Nat) :
    WF c { s with used_size := u } :=
  ⟨h.block_size_pos, h.total_eq, h.block_len⟩

/-- Whatever `used_size` holds, the search of `allocate(n)` keeps the structure
of the pool and never lowers `total_size`. -/
theorem allocate_start_wf {c : Config} {s s2 : my_allocator} {n t : Nat}
    (h : WF c s) (hn : 0 < n) (hfit : Fits c s n)
    (heq : allocate_start c s n = some (t, s2)) :
    WF c s2 ∧ s.total_size ≤ s2.total_size := by
  have hB := h.block_size_pos
  have hg := growth_bounds hB n
  have hgt := grow_target_eq hB hfit
  have hfit2 := hfit
  unfold Fits at hfit2
  obtain ⟨hwf1, htot1, _, _, hflags1⟩ := reserve_growth h hn hfit
  unfold allocate_start at heq
  by_cases hgrow : size_add s.used_size n > s.total_size
  · have hbound : size_sub (s.total_size + growth c n) n = s.total_size + growth c n - n :=
      size_sub_eq (by omega) (by omega)
    rcases scan_spec c (reserve c s (s.total_size + growth c n)) n
        (s.total_size + growth c n - n)
        (by omega) (s.total_size + growth c n - n + 2) 0 (by omega) (fun t ht => by omega) with
      ⟨t1, hscan, _, _, _⟩ | ⟨_, hnone⟩
    · simp only [if_pos hgrow, hgt, htot1, hbound, hscan, Option.some.injEq,
        Prod.mk.injEq] at heq
      obtain ⟨_, rfl⟩ := heq
      refine ⟨wf_with_used (mark_run_wf hwf1 true t1 n 0) _, ?_⟩
      show s.total_size ≤ (mark_run c true t1 n 0 _).total_size
      rw [mark_run_total, htot1]
      omega
    · exfalso
      apply hnone s.total_size (by omega)
      rw [freeRun_congr hflags1]
      intro q h1 _
      exact get_allocated_out h1
  · simp only [if_neg hgrow] at heq
    cases hscan : scan c s n (size_sub s.total_size n) (size_sub s.total_size n + 2) 0 with
    | found t1 =>
      simp only [hscan, Option.some.injEq, Prod.mk.injEq] at heq
      obtain ⟨_, rfl⟩ := heq
      refine ⟨wf_with_used (mark_run_wf h true t1 n 0) _, ?_⟩
      show s.total_size ≤ (mark_run c true t1 n 0 s).total_size
      rw [mark_run_total]
    | not_found =>
      simp only [hscan, hgt, Option.some.injEq, Prod.mk.injEq] at heq
      obtain ⟨_, rfl⟩ := heq
      refine ⟨wf_with_used (mark_run_wf hwf1 true s.total_size n 0) _, ?_⟩
      show s.total_size ≤ (mark_run c true s.total_size n 0 _).total_size
      rw [mark_run_total, htot1]
      omega
    | diverges =>
      simp only [hscan] at heq
      exact absurd heq (by simp)

/-- The pool a call of `allocate` leaves behind, returning or throwing, is the
pool it was given (`n == 0`) or the one its search produced. -/
theorem allocate_state {c : Config} {s s2 : my_allocator} {n : Nat}
    (h : (∃ p, allocate c s n = AllocResult.returned p s2)
      ∨ allocate c s n = AllocResult.threw s2) :
    (n = 0 ∧ s2 = s) ∨ (0 < n ∧ ∃ t, allocate_start c s n = some (t, s2)) := by
  unfold allocate at h
  by_cases hn : n = 0
  · left
    refine ⟨hn, ?_⟩
    simp only [hn, if_true] at h
    rcases h with ⟨p, hp⟩ | hp
    · injection hp with _ h2; exact h2.symm
    · exact absurd hp (by simp)
  · right
    refine ⟨Nat.pos_of_ne_zero hn, ?_⟩
    simp only [hn, if_false] at h
    cases hs : allocate_start c s n with
    | none =>
      simp only [hs] at h
      rcases h with ⟨p, hp⟩ | hp
      · exact absurd hp (by simp)
      · exact absurd hp (by simp)
    | some r =>
      obtain ⟨t, s1⟩ := r
      simp only [hs] at h
      cases hp : get_pointer c s1 t with
      | none =>
        simp only [hp] at h
        rcases h with ⟨p, hq⟩ | hq
        · exact absurd hq (by simp)
        · injection hq with h2; subst h2; exact ⟨t, rfl⟩
      | some p1 =>
        simp only [hp] at h
        rcases h with ⟨p, hq⟩ | hq
        · injection hq with _ h2; subst h2; exact ⟨t, rfl⟩
        · exact absurd hq (by simp)

theorem deallocate_length (c : Config) (s : my_allocator) (p n : Nat) :
    (deallocate c s p n).blocks.length = s.blocks.length := by
  rw [deallocate_unfold]
  split
  · rfl
  · split
    · exact mark_run_length c false _ n 0 s
    · rfl

theorem deallocate_wf {c : Config} {s : my_allocator} (h : WF c s) (p n : Nat) :
    WF c (deallocate c s p n) := by
  rw [deallocate_unfold]
  split
  · exact h
  · split
    · exact wf_with_used (mark_run_wf h false _ n 0) _
    · exact h

theorem reserve_total_mono {c : Config} {s : my_allocator} (h : WF c s) (m : Nat)
    (hfit : m + c.BlockSize < SIZE_MOD) : s.total_size ≤ (reserve c s m).total_size := by
  by_cases hm : m ≤ s.total_size
  · rw [reserve_le hm]
  · rw [reserve_total h (by omega) hfit]
    omega

/-- C14: `total_size` never decreases.  On every well-formed pool, a call of
`allocate(n)` (any `n` that fits in `size_t`, whether it returns or throws)
and a call of `reserve(m)` (any `m` below `2 ^ 64 - BlockSize`) leave
`total_size` at least as large as before, and `deallocate(p, n)` (any `p`,
any `n`) leaves `total_size` and the number of blocks exactly unchanged. -/
theorem C14_total_size_never_decreases (c : Config) (s : my_allocator) (hwf : WF c s) :
    (∀ n p s2, Fits c s n → allocate c s n = AllocResult.returned p s2
        → s.total_size ≤ s2.total_size)
      ∧ (∀ n s2, Fits c s n → allocate c s n = AllocResult.threw s2
        → s.total_size ≤ s2.total_size)
      ∧ (∀ p n, (deallocate c s p n).total_size = s.total_size
        ∧ (deallocate c s p n).blocks.length = s.blocks.length)
      ∧ (∀ m, m + c.BlockSize < SIZE_MOD → s.total_size ≤ (reserve c s m).total_size) := by
  refine ⟨?_, ?_, ?_, ?_⟩
  · intro n p s2 hfit hal
    rcases allocate_state (Or.inl ⟨p, hal⟩) with ⟨_, rfl⟩ | ⟨hn, t, hs⟩
    · exact Nat.le_refl _
    · exact (allocate_start_wf hwf hn hfit hs).2
  · intro n s2 hfit hal
    rcases allocate_state (Or.inr hal) with ⟨_, rfl⟩ | ⟨hn, t, hs⟩
    · exact Nat.le_refl _
    · exact (allocate_start_wf hwf hn hfit hs).2
  · intro p n
    exact ⟨deallocate_total c s p n, deallocate_length c s p n⟩
  · intro m hm
    exact reserve_total_mono hwf m hm

/-- Witness of C14: the pool `after3`. -/
theorem C14_total_size_never_decreases_witness :
    WF cfg10 after3
    ∧ (∀ n p s2, Fits cfg10 after3 n → allocate cfg10 after3 n = AllocResult.returned p s2
        → after3.total_size ≤ s2.total_size)
      ∧ (∀ n s2, Fits cfg10 after3 n → allocate cfg10 after3 n = AllocResult.threw s2
        → after3.total_size ≤ s2.total_size)
      ∧ (∀ p n, (deallocate cfg10 after3 p n).total_size = after3.total_size
        ∧ (deallocate cfg10 after3 p n).blocks.length = after3.blocks.length)
      ∧ (∀ m, m + cfg10.BlockSize < SIZE_MOD
        → after3.total_size ≤ (reserve cfg10 after3 m).total_size) :=
  ⟨after3_inv.wf, C14_total_size_never_decreases cfg10 after3 after3_inv.wf⟩

theorem reachableSized_wf {c : Config} (hB : 1 ≤ c.BlockSize)
    (hfit : 2 * c.BlockSize < SIZE_MOD) {s : my_allocator} (hr : ReachableSized c s) :
    WF c s := by
  induction hr with
  | init => exact (default_ctor_spec (c := c) hB hfit).1.wf
  | @alloc s s2 p n _ hf hal ih =>
    rcases allocate_state (Or.inl ⟨p, hal⟩) with ⟨_, rfl⟩ | ⟨hn, t, hs⟩
    · exact ih
    · exact (allocate_start_wf ih hn hf hs).1
  | @alloc_threw s s2 n _ hf hal ih =>
    rcases allocate_state (Or.inr hal) with ⟨_, rfl⟩ | ⟨hn, t, hs⟩
    · exact ih
    · exact (allocate_start_wf ih hn hf hs).1
  | @dealloc s p n _ ih => exact deallocate_wf ih p n

/-- C13: in every state reachable from a freshly constructed allocator by
calls of `allocate` (sizes fitting in `size_t`) and calls of `deallocate` with
arbitrary arguments, `total_size == blocks.size() * BlockSize`, so
`total_size` is a multiple of `BlockSize`, and every block's occupancy vector
has length `BlockSize`. -/
theorem C13_structure_invariant (c : Config) (s : my_allocator)
    (hB : 1 ≤ c.BlockSize) (hfit : 2 * c.BlockSize < SIZE_MOD)
    (hr : ReachableSized c s) :
    s.total_size = s.blocks.length * c.BlockSize
      ∧ c.BlockSize ∣ s.total_size
      ∧ ∀ b ∈ s.blocks, b.allocated.length = c.BlockSize := by
  have h := reachableSized_wf hB hfit hr
  exact ⟨h.total_eq, ⟨s.blocks.length, by rw [h.total_eq, Nat.mul_comm]⟩, h.block_len⟩

theorem allocate2_fresh :
    allocate cfg10 (default_ctor cfg10) 2 = AllocResult.returned 4096 after2 := by decide

/-- Witness of C13: the state after `p = allocate(2)`, `deallocate(p, 3)`, in
which `used_size` has wrapped. -/
theorem C13_structure_invariant_witness :
    (1 ≤ cfg10.BlockSize ∧ 2 * cfg10.BlockSize < SIZE_MOD
      ∧ ReachableSized cfg10 (deallocate cfg10 after2 4096 3))
    ∧ (deallocate cfg10 after2 4096 3).total_size
        = (deallocate cfg10 after2 4096 3).blocks.length * cfg10.BlockSize
      ∧ cfg10.BlockSize ∣ (deallocate cfg10 after2 4096 3).total_size
      ∧ ∀ b ∈ (deallocate cfg10 after2 4096 3).blocks, b.allocated.length = cfg10.BlockSize :=
  have hr : ReachableSized cfg10 (deallocate cfg10 after2 4096 3) :=
    ReachableSized.dealloc 4096 3
      (ReachableSized.alloc 2 ReachableSized.init (by unfold Fits; decide) allocate2_fresh)
  ⟨⟨by decide, by decide, hr⟩, C13_structure_invariant cfg10 _ (by decide) (by decide) hr⟩

/-- C16: on a pool that satisfies the invariant, `allocate(n)` with `n > 0`
returns the address of a slot `start` such that `start + n <= total_size`
after the call, every slot of `[start, start + n)` read free before the call
and is occupied after it, every other slot that existed before keeps its
flag, every appended slot outside the run is free, and `used_size` has grown
by exactly `n`. -/
theorem C16_allocate_frame (c : Config) (s : my_allocator) (n : Nat)
    (hinv : PoolInv c s) (hn : 0 < n) (hfit : Fits c s n) :
    ∃ start p s2, allocate_start c s n = some (start, s2)
      ∧ get_pointer c s2 start = some p
      ∧ allocate c s n = AllocResult.returned p s2
      ∧ start + n ≤ s2.total_size
      ∧ (∀ q, start ≤ q → q < start + n
          → get_allocated c s q = false ∧ get_allocated c s2 q = true)
      ∧ (∀ q, q < s.total_size → ¬ (start ≤ q ∧ q < start + n)
          → get_allocated c s2 q = get_allocated c s q)
      ∧ (∀ q, s.total_size ≤ q → q < s2.total_size → ¬ (start ≤ q ∧ q < start + n)
          → get_allocated c s2 q = false)
      ∧ s2.used_size = s.used_size + n := by
  obtain ⟨start, p, s2, hs, hp, hal, hpost⟩ := allocate_spec hinv hn hfit
  refine ⟨start, p, s2, hs, hp, hal, hpost.in_range, ?_, ?_, ?_, hpost.used⟩
  · intro q h1 h2
    refine ⟨hpost.was_free q h1 h2, ?_⟩
    rw [hpost.flags q, if_pos ⟨h1, h2⟩]
  · intro q _ hq
    rw [hpost.flags q, if_neg hq]
  · intro q h1 _ hq
    rw [hpost.flags q, if_neg hq]
    exact get_allocated_out h1

/-- Witness of C16: `allocate(9)` on the pool `after3`, which has to grow. -/
theorem C16_allocate_frame_witness :
    (PoolInv cfg10 after3 ∧ 0 < 9 ∧ Fits cfg10 after3 9)
    ∧ ∃ start p s2, allocate_start cfg10 after3 9 = some (start, s2)
      ∧ get_pointer cfg10 s2 start = some p
      ∧ allocate cfg10 after3 9 = AllocResult.returned p s2
      ∧ start + 9 ≤ s2.total_size
      ∧ (∀ q, start ≤ q → q < start + 9
          → get_allocated cfg10 after3 q = false ∧ get_allocated cfg10 s2 q = true)
      ∧ (∀ q, q < after3.total_size → ¬ (start ≤ q ∧ q < start + 9)
          → get_allocated cfg10 s2 q = get_allocated cfg10 after3 q)
      ∧ (∀ q, after3.total_size ≤ q → q < s2.total_size → ¬ (start ≤ q ∧ q < start + 9)
          → get_allocated cfg10 s2 q = false)
      ∧ s2.used_size = after3.used_size + 9 :=
  ⟨⟨after3_inv, by decide, by unfold Fits; decide⟩,
    C16_allocate_frame cfg10 after3 9 after3_inv (by decide) (by unfold Fits; decide)⟩

/-- When the capacity check of `allocate(n)` grows the pool, the scan that
follows finds a run. -/
theorem scan_after_growth {c : Config} {s : my_allocator} {n : Nat}
    (hinv : PoolInv c s) (hn : 0 < n) (hfit : Fits c s n)
    (hfull : s.total_size < s.used_size + n) :
    after_capacity_check c s n = reserve c s (s.total_size + growth c n)
      ∧ ∃ t, scan c (after_capacity_check c s n) n
          (size_sub (after_capacity_check c s n).total_size n)
          (size_sub (after_capacity_check c s n).total_size n + 2) 0
        = ScanResult.found t := by
  have hwf := hinv.wf
  have hB := hwf.block_size_pos
  have hle : s.used_size ≤ s.total_size := by rw [hinv.used_eq]; exact count_true_le hwf
  have hfit2 := hfit
  unfold Fits at hfit2
  have hg := growth_bounds hB n
  have hadd : size_add s.used_size n = s.used_size + n := size_add_eq (by omega)
  have hcap : after_capacity_check c s n = reserve c s (s.total_size + growth c n) := by
    unfold after_capacity_check
    rw [hadd, if_pos hfull, grow_target_eq hB hfit]
  obtain ⟨_, htot1, _, _, hflags1⟩ := reserve_growth hwf hn hfit
  refine ⟨hcap, ?_⟩
  rw [hcap, htot1]
  have hbound : size_sub (s.total_size + growth c n) n = s.total_size + growth c n - n :=
    size_sub_eq (by omega) (by omega)
  rw [hbound]
  rcases scan_spec c (reserve c s (s.total_size + growth c n)) n
      (s.total_size + growth c n - n)
      (by omega) (s.total_size + growth c n - n + 2) 0 (by omega) (fun t ht => by omega) with
    ⟨t, hscan, _, _, _⟩ | ⟨_, hnone⟩
  · exact ⟨t, hscan⟩
  · exfalso
    apply hnone s.total_size (by omega)
    rw [freeRun_congr hflags1]
    intro q h1 _
    exact get_allocated_out h1

/-- C19: on a pool that satisfies the invariant, one call `allocate(n)` with
`n > 0` grows the pool at most once: `total_size` afterwards is unchanged or
is `total_size + ceil(n / BlockSize) * BlockSize`; and when the capacity check
grows the pool (`used_size + n > total_size`) the scan finds a run, so the
growth after the scan is not executed. -/
theorem C19_grows_at_most_once (c : Config) (s : my_allocator) (n : Nat)
    (hinv : PoolInv c s) (hn : 0 < n) (hfit : Fits c s n) :
    (∃ start p s2, allocate_start c s n = some (start, s2)
        ∧ allocate c s n = AllocResult.returned p s2
        ∧ (s2.total_size = s.total_size
          ∨ s2.total_size
              = s.total_size + ((n + c.BlockSize - 1) / c.BlockSize) * c.BlockSize))
      ∧ (s.total_size < s.used_size + n →
          ∃ t, scan c (after_capacity_check c s n) n
              (size_sub (after_capacity_check c s n).total_size n)
              (size_sub (after_capacity_check c s n).total_size n + 2) 0
            = ScanResult.found t) := by
  constructor
  · obtain ⟨start, p, s2, hs, _, hal, hpost⟩ := allocate_spec hinv hn hfit
    exact ⟨start, p, s2, hs, hal, hpost.total_cases⟩
  · intro hfull
    exact (scan_after_growth hinv hn hfit hfull).2

/-- Witness of C19: `allocate(4)` on a pool whose only block is full. -/
theorem C19_grows_at_most_once_witness :
    (PoolInv cfg10 full10 ∧ 0 < 4 ∧ Fits cfg10 full10 4)
    ∧ (∃ start p s2, allocate_start cfg10 full10 4 = some (start, s2)
        ∧ allocate cfg10 full10 4 = AllocResult.returned p s2
        ∧ (s2.total_size = full10.total_size
          ∨ s2.total_size
              = full10.total_size
                + ((4 + cfg10.BlockSize - 1) / cfg10.BlockSize) * cfg10.BlockSize))
      ∧ (full10.total_size < full10.used_size + 4 →
          ∃ t, scan cfg10 (after_capacity_check cfg10 full10 4) 4
              (size_sub (after_capacity_check cfg10 full10 4).total_size 4)
              (size_sub (after_capacity_check cfg10 full10 4).total_size 4 + 2) 0
            = ScanResult.found t) :=
  ⟨⟨full10_inv, by decide, by unfold Fits; decide⟩,
    C19_grows_at_most_once cfg10 full10 4 full10_inv (by decide) (by unfold Fits; decide)⟩

theorem reserve_total_of_eq {c : Config} {s : my_allocator} (hB : 0 < c.BlockSize)
    (htot : s.total_size = s.blocks.length * c.BlockSize) {new_size : Nat}
    (hgt : s.total_size < new_size) (hfit : new_size + c.BlockSize < SIZE_MOD) :
    (reserve c s new_size).total_size
      = s.total_size + ((new_size - s.total_size + c.BlockSize - 1) / c.BlockSize) * c.BlockSize := by
  have hb := ceil_blocks_bounds hB (new_size - s.total_size)
  have hblk := reserve_blocks hB hgt hfit
  have : (reserve c s new_size).total_size
      = size_mul (reserve c s new_size).blocks.length c.BlockSize := by
    unfold reserve; rw [if_neg (by omega)]
  rw [this, hblk, List.length_append, new_blocks_length, size_mul_eq, Nat.add_mul, ← htot]
  rw [Nat.add_mul, ← htot]
  omega

/-- A multiple of `B` below `m + B` is at most every multiple of `B` that is at
least `m`. -/
theorem least_multiple {B m T k : Nat} (hT : T = k * B) (h2 : T < m + B)
    (x : Nat) (hx : B ∣ x) (hmx : m ≤ x) : T ≤ x := by
  obtain ⟨j, rfl⟩ := hx
  by_contra hlt
  have hlt2 : B * j < k * B := by omega
  have hjk : j < k := by
    rw [Nat.mul_comm B j] at hlt2
    exact Nat.lt_of_mul_lt_mul_right hlt2
  have h3 : (j + 1) * B ≤ k * B := Nat.mul_le_mul_right B hjk
  rw [Nat.add_mul, Nat.one_mul, Nat.mul_comm j B] at h3
  omega

/-- C17: on a pool with `total_size == blocks.size() * BlockSize` and
`BlockSize >= 1`, `reserve(m)` with `m <= total_size` changes nothing, and
`reserve(m)` with `total_size < m` (and `m + BlockSize < 2 ^ 64`) keeps the
existing blocks unchanged as a prefix, appends only blocks whose flags are all
`false`, keeps `used_size` and leaves `total_size` equal to the least multiple
of `BlockSize` that is at least `m`. -/
theorem C17_reserve_effect (c : Config) (s : my_allocator) (m : Nat)
    (hB : 1 ≤ c.BlockSize) (htot : s.total_size = s.blocks.length * c.BlockSize) :
    (m ≤ s.total_size → reserve c s m = s)
      ∧ (s.total_size < m → m + c.BlockSize < SIZE_MOD →
          ∃ k, (reserve c s m).blocks = s.blocks ++ new_blocks c s.blocks.length k
            ∧ (∀ b ∈ new_blocks c s.blocks.length k,
                b.allocated = List.replicate c.BlockSize false)
            ∧ (reserve c s m).used_size = s.used_size
            ∧ c.BlockSize ∣ (reserve c s m).total_size
            ∧ m ≤ (reserve c s m).total_size
            ∧ ∀ x, c.BlockSize ∣ x → m ≤ x → (reserve c s m).total_size ≤ x) := by
  refine ⟨fun hm => reserve_le hm, ?_⟩
  intro hgt hfit
  have hb := ceil_blocks_bounds hB (m - s.total_size)
  have ht := reserve_total_of_eq hB htot hgt hfit
  have hk : (reserve c s m).total_size
      = (s.blocks.length + (m - s.total_size + c.BlockSize - 1) / c.BlockSize)
          * c.BlockSize := by
    rw [ht, Nat.add_mul, ← htot]
  refine ⟨(m - s.total_size + c.BlockSize - 1) / c.BlockSize, reserve_blocks hB hgt hfit,
    ?_, reserve_used c s m, ⟨_, by rw [hk, Nat.mul_comm]⟩, by omega, ?_⟩
  · intro b hb2
    obtain ⟨j, _, rfl⟩ := new_blocks_mem hb2
    rfl
  · exact least_multiple hk (by omega)

/-- Witness of C17: `reserve(25)` on the pool `after3` (`BlockSize = 10`,
`total_size = 10`). -/
theorem C17_reserve_effect_witness :
    (1 ≤ cfg10.BlockSize ∧ after3.total_size = after3.blocks.length * cfg10.BlockSize)
    ∧ (25 ≤ after3.total_size → reserve cfg10 after3 25 = after3)
      ∧ (after3.total_size < 25 → 25 + cfg10.BlockSize < SIZE_MOD →
          ∃ k, (reserve cfg10 after3 25).blocks
                = after3.blocks ++ new_blocks cfg10 after3.blocks.length k
            ∧ (∀ b ∈ new_blocks cfg10 after3.blocks.length k,
                b.allocated = List.replicate cfg10.BlockSize false)
            ∧ (reserve cfg10 after3 25).used_size = after3.used_size
            ∧ cfg10.BlockSize ∣ (reserve cfg10 after3 25).total_size
            ∧ 25 ≤ (reserve cfg10 after3 25).total_size
            ∧ ∀ x, cfg10.BlockSize ∣ x → 25 ≤ x → (reserve cfg10 after3 25).total_size ≤ x) :=
  ⟨⟨by decide, by decide⟩, C17_reserve_effect cfg10 after3 25 (by decide) (by decide)⟩

theorem get_position_from_disjoint {c : Config} (hsz : 0 < c.sizeofT)
    (hbytes : c.BlockSize * c.sizeofT < SIZE_MOD) (l : List memory_block)
    (idx j e : Nat) (b : memory_block) (hj : l[j]? = some b) (he : e < c.BlockSize)
    (hdis : ∀ i bi, i < j → l[i]? = some bi →
      bi.data + c.BlockSize * c.sizeofT ≤ b.data
        ∨ b.data + c.BlockSize * c.sizeofT ≤ bi.data)
    (hfit : (idx + j) * c.BlockSize + e < SIZE_MOD) :
    get_position_from c (b.data + e * c.sizeofT) l idx = (idx + j) * c.BlockSize + e := by
  have hmul : size_mul c.BlockSize c.sizeofT = c.BlockSize * c.sizeofT := size_mul_eq hbytes
  have hlt : e * c.sizeofT < c.BlockSize * c.sizeofT :=
    Nat.mul_lt_mul_of_pos_right he hsz
  induction l generalizing idx j with
  | nil => simp at hj
  | cons x rest ih =>
    cases j with
    | zero =>
      simp only [List.getElem?_cons_zero, Option.some.injEq] at hj
      subst hj
      have h1 : x.data ≤ x.data + e * c.sizeofT
          ∧ x.data + e * c.sizeofT < x.data + c.BlockSize * c.sizeofT := by omega
      have h2 : x.data + e * c.sizeofT - x.data = e * c.sizeofT := by omega
      simp only [get_position_from, hmul]
      rw [if_pos h1, h2, Nat.mul_mod_left, if_pos rfl, Nat.mul_div_cancel _ hsz]
      rw [Nat.add_zero] at hfit
      have hm : idx * c.BlockSize < SIZE_MOD := by omega
      rw [size_mul_eq hm, size_add_eq hfit, Nat.add_zero]
    | succ j =>
      simp only [List.getElem?_cons_succ] at hj
      have hx := hdis 0 x (Nat.succ_pos j) (by simp)
      have h1 : ¬ (x.data ≤ b.data + e * c.sizeofT
          ∧ b.data + e * c.sizeofT < x.data + c.BlockSize * c.sizeofT) := by omega
      simp only [get_position_from, hmul]
      rw [if_neg h1]
      have hidx : idx + (j + 1) = idx + 1 + j := by omega
      rw [hidx] at hfit ⊢
      apply ih (idx + 1) j hj
      · intro i bi hi hbi
        exact hdis (i + 1) bi (by omega) (by simpa using hbi)
      · exact hfit

/-- C18: on a pool whose blocks own pairwise disjoint byte ranges, for every
position `pos < total_size` the call `get_pointer(pos)` returns the address at
element offset `pos % BlockSize` of block `pos / BlockSize`, and
`get_position` maps that address back to `pos`. -/
theorem C18_position_pointer_roundtrip (c : Config) (s : my_allocator) (pos : Nat)
    (hB : 1 ≤ c.BlockSize) (htot : s.total_size = s.blocks.length * c.BlockSize)
    (hsz : 0 < c.sizeofT) (hbytes : c.BlockSize * c.sizeofT < SIZE_MOD)
    (hm : s.total_size < SIZE_MOD) (hdis : DisjointBlocks c s)
    (hpos : pos < s.total_size) :
    ∃ b p, s.blocks[pos / c.BlockSize]? = some b
      ∧ p = b.data + (pos % c.BlockSize) * c.sizeofT
      ∧ get_pointer c s pos = some p
      ∧ get_position c s p = pos := by
  have hidx : pos / c.BlockSize < s.blocks.length := by
    rw [Nat.div_lt_iff_lt_mul hB, ← htot]; exact hpos
  have hb : s.blocks[pos / c.BlockSize]? = some s.blocks[pos / c.BlockSize] :=
    List.getElem?_eq_getElem hidx
  have hdm : pos / c.BlockSize * c.BlockSize + pos % c.BlockSize = pos := by
    rw [Nat.mul_comm]; exact Nat.div_add_mod pos c.BlockSize
  refine ⟨s.blocks[pos / c.BlockSize], _, hb, rfl, ?_, ?_⟩
  · unfold get_pointer
    have hp2 : ¬ pos ≥ s.total_size := by omega
    simp only [hp2, if_false, hb, memory_block.get_element_ptr]
  · unfold get_position
    rw [get_position_from_disjoint hsz hbytes s.blocks 0 (pos / c.BlockSize)
      (pos % c.BlockSize) _ hb (Nat.mod_lt _ hB)
      (fun i bi hi hbi => hdis i (pos / c.BlockSize) bi _ (by omega) hbi hb)
      (by rw [Nat.zero_add]; omega)]
    rw [Nat.zero_add]
    exact hdm

theorem after7_7_disjoint : DisjointBlocks cfg10 after7_7 := by
  intro i j bi bj hij hi hj
  have hlen : after7_7.blocks.length = 2 := rfl
  have hi2 : i < 2 := by
    by_contra h
    rw [List.getElem?_eq_none (by rw [hlen]; omega)] at hi
    exact absurd hi (by simp)
  have hj2 : j < 2 := by
    by_contra h
    rw [List.getElem?_eq_none (by rw [hlen]; omega)] at hj
    exact absurd hj (by simp)
  interval_cases i <;> interval_cases j <;>
    simp only [after7_7, List.getElem?_cons_zero, List.getElem?_cons_succ,
      Option.some.injEq] at hi hj <;>
    first
      | exact absurd rfl hij
      | (subst hi; subst hj; decide)

/-- Witness of C18: position 13 of the two-block pool `after7_7`. -/
theorem C18_position_pointer_roundtrip_witness :
    (1 ≤ cfg10.BlockSize ∧ after7_7.total_size = after7_7.blocks.length * cfg10.BlockSize
      ∧ 0 < cfg10.sizeofT ∧ cfg10.BlockSize * cfg10.sizeofT < SIZE_MOD
      ∧ after7_7.total_size < SIZE_MOD ∧ DisjointBlocks cfg10 after7_7
      ∧ 13 < after7_7.total_size)
    ∧ ∃ b p, after7_7.blocks[13 / cfg10.BlockSize]? = some b
      ∧ p = b.data + (13 % cfg10.BlockSize) * cfg10.sizeofT
      ∧ get_pointer cfg10 after7_7 13 = some p
      ∧ get_position cfg10 after7_7 p = 13 :=
  ⟨⟨by decide, by decide, by decide, by decide, by decide, after7_7_disjoint, by decide⟩,
    C18_position_pointer_roundtrip cfg10 after7_7 13 (by decide) (by decide) (by decide)
      (by decide) (by decide) after7_7_disjoint (by decide)⟩

theorem run_is_free_iff (c : Config) (s : my_allocator) (t n : Nat) :
    run_is_free c s t n = true ↔ FreeRun c s n t := by
  unfold run_is_free FreeRun
  simp only [List.all_eq_true, List.mem_range, Bool.not_eq_true']
  constructor
  · intro h q h1 h2
    have := h (q - t) (by omega)
    rwa [Nat.add_sub_cancel' h1] at this
  · intro h i hi
    exact h (t + i) (by omega) (by omega)

theorem naive_first_fit_some {c : Config} {s : my_allocator} {n k start t : Nat}
    (h : naive_first_fit c s n k start = some t) :
    start ≤ t ∧ t < start + k ∧ FreeRun c s n t
      ∧ ∀ t2, start ≤ t2 → t2 < t → ¬ FreeRun c s n t2 := by
  induction k generalizing start with
  | zero => simp [naive_first_fit] at h
  | succ k ih =>
    simp only [naive_first_fit] at h
    by_cases hf : run_is_free c s start n = true
    · rw [if_pos hf] at h
      simp only [Option.some.injEq] at h
      subst h
      exact ⟨Nat.le_refl _, by omega, (run_is_free_iff c s _ n).mp hf,
        fun t2 h1 h2 => by omega⟩
    · rw [if_neg hf] at h
      obtain ⟨h1, h2, h3, h4⟩ := ih h
      refine ⟨by omega, by omega, h3, ?_⟩
      intro t2 ht1 ht2
      by_cases he : t2 = start
      · subst he
        exact fun hfree => hf ((run_is_free_iff c s _ n).mpr hfree)
      · exact h4 t2 (by omega) ht2

theorem naive_first_fit_none {c : Config} {s : my_allocator} {n k start : Nat}
    (h : naive_first_fit c s n k start = none) :
    ∀ t2, start ≤ t2 → t2 < start + k → ¬ FreeRun c s n t2 := by
  induction k generalizing start with
  | zero => intro t2 h1 h2; omega
  | succ k ih =>
    simp only [naive_first_fit] at h
    by_cases hf : run_is_free c s start n = true
    · rw [if_pos hf] at h
      exact absurd h (by simp)
    · rw [if_neg hf] at h
      intro t2 ht1 ht2
      by_cases he : t2 = start
      · subst he
        exact fun hfree => hf ((run_is_free_iff c s _ n).mpr hfree)
      · exact ih h t2 (by omega) (by omega)

/-- Without wrap-around in the counters, the scan of `allocate` with its
skip-ahead step and the naive first-fit scan have the same outcome. -/
theorem scan_eq_naive (c : Config) (s : my_allocator) (n bound : Nat)
    (hb : bound + n < SIZE_MOD) :
    scan c s n bound (bound + 2) 0 = naive_result (naive_first_fit c s n (bound + 1) 0) := by
  rcases scan_spec c s n bound hb (bound + 2) 0 (by omega) (fun t ht => by omega) with
    ⟨t, hscan, htb, hfree, hmin⟩ | ⟨hscan, hnone⟩
  · rw [hscan]
    cases hnaive : naive_first_fit c s n (bound + 1) 0 with
    | none =>
      exact absurd hfree (naive_first_fit_none hnaive t (Nat.zero_le _) (by omega))
    | some t1 =>
      obtain ⟨_, h2, h3, h4⟩ := naive_first_fit_some hnaive
      have : t1 = t := by
        rcases Nat.lt_trichotomy t1 t with h | h | h
        · exact absurd h3 (hmin t1 h)
        · exact h
        · exact absurd hfree (h4 t (Nat.zero_le _) h)
      rw [this]; rfl
  · rw [hscan]
    cases hnaive : naive_first_fit c s n (bound + 1) 0 with
    | none => rfl
    | some t1 =>
      obtain ⟨_, h2, h3, _⟩ := naive_first_fit_some hnaive
      exact absurd h3 (hnone t1 (by omega))

theorem allocate_start_unfold (c : Config) (s : my_allocator) (n : Nat) :
    allocate_start c s n
      = match scan c (after_capacity_check c s n) n
            (size_sub (after_capacity_check c s n).total_size n)
            (size_sub (after_capacity_check c s n).total_size n + 2) 0 with
        | ScanResult.found start =>
            some (start,
              { mark_run c true start n 0 (after_capacity_check c s n) with
                used_size :=
                  size_add (mark_run c true start n 0 (after_capacity_check c s n)).used_size
                    n })
        | ScanResult.not_found =>
            some ((after_capacity_check c s n).total_size,
              { mark_run c true (after_capacity_check c s n).total_size n 0
                  (reserve c (after_capacity_check c s n)
                    (grow_target c (after_capacity_check c s n) n)) with
                used_size :=
                  size_add (mark_run c true (after_capacity_check c s n).total_size n 0
                    (reserve c (after_capacity_check c s n)
                      (grow_target c (after_capacity_check c s n) n))).used_size n })
        | ScanResult.diverges => none := rfl

/-- The pool after the capacity check of `allocate(n)`: same flags, room for
a run of `n` slots. -/
theorem after_capacity_check_spec {c : Config} {s : my_allocator} {n : Nat}
    (hinv : PoolInv c s) (hn : 0 < n) (hfit : Fits c s n) :
    WF c (after_capacity_check c s n)
      ∧ n ≤ (after_capacity_check c s n).total_size
      ∧ (after_capacity_check c s n).total_size + c.BlockSize < SIZE_MOD
      ∧ ∀ q, get_allocated c (after_capacity_check c s n) q = get_allocated c s q := by
  have hwf := hinv.wf
  have hB := hwf.block_size_pos
  have hle : s.used_size ≤ s.total_size := by rw [hinv.used_eq]; exact count_true_le hwf
  have hfit2 := hfit
  unfold Fits at hfit2
  have hg := growth_bounds hB n
  have hadd : size_add s.used_size n = s.used_size + n := size_add_eq (by omega)
  by_cases hfull : s.total_size < s.used_size + n
  · obtain ⟨hcap, _⟩ := scan_after_growth hinv hn hfit hfull
    obtain ⟨hwf1, htot1, _, _, hflags1⟩ := reserve_growth hwf hn hfit
    rw [hcap]
    exact ⟨hwf1, by omega, by omega, hflags1⟩
  · have hcap : after_capacity_check c s n = s := by
      unfold after_capacity_check
      rw [hadd, if_neg hfull]
    rw [hcap]
    exact ⟨hwf, by omega, by omega, fun _ => rfl⟩

/-- C15: on a pool that satisfies the invariant and for `n > 0`, the scan of
`allocate(n)` with its skip-ahead step has the outcome of the naive first-fit
scan over the starts `0 .. total_size - n` of the pool left by the capacity
check; and if some start `t` with `t + n <= total_size` has all of
`[t, t + n)` free there, `allocate(n)` returns the address of the least such
start. -/
theorem C15_scan_is_first_fit (c : Config) (s : my_allocator) (n : Nat)
    (hinv : PoolInv c s) (hn : 0 < n) (hfit : Fits c s n) :
    scan c (after_capacity_check c s n) n
        (size_sub (after_capacity_check c s n).total_size n)
        (size_sub (after_capacity_check c s n).total_size n + 2) 0
      = naive_result (naive_first_fit c (after_capacity_check c s n) n
          ((after_capacity_check c s n).total_size - n + 1) 0)
    ∧ ∀ t, t + n ≤ (after_capacity_check c s n).total_size
        → FreeRun c (after_capacity_check c s n) n t
        → (∀ t2, t2 + n ≤ (after_capacity_check c s n).total_size
            → FreeRun c (after_capacity_check c s n) n t2 → t ≤ t2)
        → ∃ p s2, allocate_start c s n = some (t, s2)
            ∧ get_pointer c s2 t = some p
            ∧ allocate c s n = AllocResult.returned p s2 := by
  obtain ⟨hwf1, hn1, hlt1, _⟩ := after_capacity_check_spec hinv hn hfit
  have hbound : size_sub (after_capacity_check c s n).total_size n
      = (after_capacity_check c s n).total_size - n := size_sub_eq hn1 (by omega)
  rw [hbound]
  refine ⟨scan_eq_naive c _ n _ (by omega), ?_⟩
  intro t ht hfree hleast
  rcases scan_spec c (after_capacity_check c s n) n
      ((after_capacity_check c s n).total_size - n) (by omega)
      ((after_capacity_check c s n).total_size - n + 2) 0 (by omega)
      (fun t ht => by omega) with
    ⟨t1, hscan, htb, hfree1, hmin1⟩ | ⟨_, hnone⟩
  · have ht1 : t1 = t := by
      rcases Nat.lt_trichotomy t1 t with h | h | h
      · have := hleast t1 (by omega) hfree1
        omega
      · exact h
      · exact absurd hfree (hmin1 t h)
    subst ht1
    have hs : allocate_start c s n
        = some (t1,
            { mark_run c true t1 n 0 (after_capacity_check c s n) with
              used_size :=
                size_add (mark_run c true t1 n 0 (after_capacity_check c s n)).used_size
                  n }) := by
      rw [allocate_start_unfold, hbound, hscan]
    have hwf2 := wf_with_used (mark_run_wf hwf1 true t1 n 0)
      (size_add (mark_run c true t1 n 0 (after_capacity_check c s n)).used_size n)
    have hlt : t1 < (mark_run c true t1 n 0 (after_capacity_check c s n)).total_size := by
      rw [mark_run_total]; omega
    obtain ⟨p, hp⟩ := get_pointer_some hwf2 hlt
    exact ⟨p, _, hs, hp, allocate_of_start hn hs hp⟩
  · exact absurd hfree (hnone t (by omega))

/-- Witness of C15: `allocate(3)` on the pool `after7` (slots 0 to 6 of 10 in
use), where the least free start is 7. -/
theorem C15_scan_is_first_fit_witness :
    (PoolInv cfg10 after7 ∧ 0 < 3 ∧ Fits cfg10 after7 3)
    ∧ scan cfg10 (after_capacity_check cfg10 after7 3) 3
        (size_sub (after_capacity_check cfg10 after7 3).total_size 3)
        (size_sub (after_capacity_check cfg10 after7 3).total_size 3 + 2) 0
      = naive_result (naive_first_fit cfg10 (after_capacity_check cfg10 after7 3) 3
          ((after_capacity_check cfg10 after7 3).total_size - 3 + 1) 0)
    ∧ ∀ t, t + 3 ≤ (after_capacity_check cfg10 after7 3).total_size
        → FreeRun cfg10 (after_capacity_check cfg10 after7 3) 3 t
        → (∀ t2, t2 + 3 ≤ (after_capacity_check cfg10 after7 3).total_size
            → FreeRun cfg10 (after_capacity_check cfg10 after7 3) 3 t2 → t ≤ t2)
        → ∃ p s2, allocate_start cfg10 after7 3 = some (t, s2)
            ∧ get_pointer cfg10 s2 t = some p
            ∧ allocate cfg10 after7 3 = AllocResult.returned p s2 :=
  have hinv : PoolInv cfg10 after7 := ⟨⟨by decide, by decide, by decide⟩, by decide⟩
  ⟨⟨hinv, by decide, by unfold Fits; decide⟩,
    C15_scan_is_first_fit cfg10 after7 3 hinv (by decide) (by unfold Fits; decide)⟩

theorem growth_block (c : Config) (hB : 0 < c.BlockSize) : growth c c.BlockSize = c.BlockSize := by
  unfold growth
  have : (c.BlockSize + c.BlockSize - 1) / c.BlockSize = 1 := by
    apply Nat.div_eq_of_lt_le <;> omega
  rw [this, Nat.one_mul]

/-- On a pool that is full, every further `allocate(BlockSize)` appends exactly
one block. -/
theorem alloc_blocks (c : Config) (hB : 0 < c.BlockSize) (j k : Nat) (s : my_allocator)
    (hinv : PoolInv c s) (hfull : s.used_size = s.total_size)
    (htot : s.total_size = k * c.BlockSize)
    (hfit : (k + j + 2) * c.BlockSize ≤ SIZE_MOD) :
    ∃ runs s2, alloc_runs c s (List.replicate j c.BlockSize) = some (runs, s2)
      ∧ s2.total_size = (k + j) * c.BlockSize := by
  induction j generalizing s k with
  | zero => exact ⟨[], s, rfl, by rw [htot, Nat.add_zero]⟩
  | succ j ih =>
    have h1 : (k + 3) * c.BlockSize ≤ (k + (j + 1) + 2) * c.BlockSize :=
      Nat.mul_le_mul_right _ (by omega)
    rw [Nat.add_mul] at h1
    have hf : Fits c s c.BlockSize := by unfold Fits; omega
    obtain ⟨start, p, s1, hs, _, hal, hpost⟩ := allocate_spec hinv hB hf
    obtain ⟨t, s3, hs3, htot3⟩ := allocate_start_full hinv hB hf (by omega)
    rw [hs] at hs3
    injection hs3 with h
    injection h with _ h2
    subst h2
    rw [growth_block c hB] at htot3
    have htot1 : s1.total_size = (k + 1) * c.BlockSize := by
      rw [htot3, htot, Nat.add_mul, Nat.one_mul]
    obtain ⟨runs, s2, hruns, htot2⟩ :=
      ih (k + 1) s1 (hpost.inv hinv) (by rw [hpost.used, htot3, hfull]) htot1
        (by
          have : k + 1 + j + 2 = k + (j + 1) + 2 := by omega
          rw [this]; exact hfit)
    refine ⟨(start, c.BlockSize) :: runs, s2, ?_, ?_⟩
    · rw [List.replicate_succ]
      exact alloc_runs_step hs hal hruns
    · rw [htot2]
      congr 1
      omega

/-- C11: for every block size `B >= 1` and every `N >= 1`, `N` consecutive
calls `allocate(B)` on a freshly constructed allocator, with no `deallocate`
in between, all return and leave `total_size == N * B`. -/
theorem C11_block_sized_requests (c : Config) (N : Nat)
    (hB : 1 ≤ c.BlockSize) (hN : 1 ≤ N)
    (hfit : (N + 3) * c.BlockSize ≤ SIZE_MOD) :
    ∃ runs s, alloc_runs c (default_ctor c) (List.replicate N c.BlockSize) = some (runs, s)
      ∧ s.total_size = N * c.BlockSize := by
  have h3 : 4 * c.BlockSize ≤ (N + 3) * c.BlockSize := Nat.mul_le_mul_right _ (by omega)
  obtain ⟨hinv0, htot0, hused0, hfl0, _⟩ := default_ctor_spec (c := c) hB (by omega)
  obtain ⟨start, p, s1, hs, _, hal, hpost, htot1, _, _⟩ :=
    allocate_no_growth (t := 0) hinv0 hB (by unfold Fits; omega) (by omega) (by omega)
      (fun q _ _ => hfl0 q)
  obtain ⟨k, hk⟩ : ∃ k, N = k + 1 := ⟨N - 1, by omega⟩
  subst hk
  obtain ⟨runs, s2, hruns, htot2⟩ :=
    alloc_blocks c hB k 1 s1 (hpost.inv hinv0)
      (by rw [hpost.used, hused0, htot1, htot0]; omega)
      (by rw [htot1, htot0, Nat.one_mul])
      (Nat.le_trans (Nat.mul_le_mul_right _ (by omega)) hfit)
  refine ⟨(start, c.BlockSize) :: runs, s2, ?_, ?_⟩
  · rw [List.replicate_succ]
    exact alloc_runs_step hs hal hruns
  · rw [htot2]
    congr 1
    omega

/-- Witness of C11: `BlockSize = 10` and `N = 3`. -/
theorem C11_block_sized_requests_witness :
    (1 ≤ cfg10.BlockSize ∧ 1 ≤ 3 ∧ (3 + 3) * cfg10.BlockSize ≤ SIZE_MOD)
    ∧ ∃ runs s,
        alloc_runs cfg10 (default_ctor cfg10) (List.replicate 3 cfg10.BlockSize)
          = some (runs, s)
        ∧ s.total_size = 3 * cfg10.BlockSize :=
  ⟨⟨by decide, by decide, by decide⟩,
    C11_block_sized_requests cfg10 3 (by decide) (by decide) (by decide)⟩

theorem live_disjoint_symm : Symmetric live_disjoint := by
  intro r1 r2 h q hq
  exact h q ⟨hq.2.2.1, hq.2.2.2, hq.1, hq.2.1⟩

theorem liveInv_init {c : Config} (hB : 1 ≤ c.BlockSize)
    (hfit : 2 * c.BlockSize < SIZE_MOD) : LiveInv c (default_ctor c) [] := by
  obtain ⟨hinv, htot, _, hfl, hlay⟩ := default_ctor_spec (c := c) hB hfit
  refine ⟨hinv, hlay, by omega, by intro r hr; simp at hr, List.Pairwise.nil, ?_⟩
  intro q
  rw [hfl q]
  simp

theorem liveInv_alloc {c : Config} {s s2 : my_allocator} {live : List LiveRun}
    {p start n : Nat} (h : LiveInv c s live) (hn : 0 < n) (hfit : Fits c s n)
    (hs : allocate_start c s n = some (start, s2))
    (hal : allocate c s n = AllocResult.returned p s2) :
    LiveInv c s2 ({ ptr := p, start := start, len := n } :: live) := by
  obtain ⟨start1, p1, s3, hs1, hp1, hal1, hpost⟩ := allocate_spec h.inv hn hfit
  rw [hs] at hs1
  injection hs1 with h1
  injection h1 with h2 h3
  subst h2; subst h3
  rw [hal] at hal1
  injection hal1 with h4 _
  subst h4
  have hlt : start < s2.total_size := by have := hpost.in_range; omega
  rw [get_pointer_eq hpost.wf (hpost.layout h.layout) hlt] at hp1
  have hmono : s.total_size ≤ s2.total_size := by
    rcases hpost.total_cases with h5 | h5 <;> omega
  refine ⟨hpost.inv h.inv, hpost.layout h.layout, hpost.total_lt, ?_, ?_, ?_⟩
  · intro r hr
    rcases List.mem_cons.mp hr with h5 | h5
    · subst h5
      exact ⟨hn, hpost.in_range, (Option.some.inj hp1).symm⟩
    · obtain ⟨h6, h7, h8⟩ := h.runs r h5
      exact ⟨h6, by omega, h8⟩
  · refine List.Pairwise.cons ?_ h.disjoint
    intro r hr q hq
    have hocc := (h.occupied q).mpr ⟨r, hr, hq.2.2.1, hq.2.2.2⟩
    have hfree := hpost.was_free q hq.1 hq.2.1
    rw [hocc] at hfree
    exact absurd hfree (by simp)
  · intro q
    rw [hpost.flags q]
    by_cases hq : start ≤ q ∧ q < start + n
    · rw [if_pos hq]
      exact ⟨fun _ => ⟨_, List.mem_cons_self _ _, hq.1, hq.2⟩, fun _ => rfl⟩
    · rw [if_neg hq, h.occupied q]
      constructor
      · rintro ⟨r, hr, h5⟩
        exact ⟨r, List.mem_cons_of_mem _ hr, h5⟩
      · rintro ⟨r, hr, h5⟩
        rcases List.mem_cons.mp hr with h6 | h6
        · subst h6; exact absurd h5 hq
        · exact ⟨r, h6, h5⟩

theorem liveInv_dealloc {c : Config} {s : my_allocator} {live : List LiveRun}
    (hc : ConfigOk c) (h : LiveInv c s live) (r : LiveRun) (hr : r ∈ live) :
    LiveInv c (deallocate c s r.ptr r.len) (live.erase r) := by
  obtain ⟨hlen, hrange, hptr⟩ := h.runs r hr
  have hwf := h.inv.wf
  have hB := hwf.block_size_pos
  have hp : get_pointer c s r.start = some r.ptr := by
    rw [get_pointer_eq hwf h.layout (by omega), hptr]
  have hocc : ∀ q, r.start ≤ q → q < r.start + r.len → get_allocated c s q = true :=
    fun q h1 h2 => (h.occupied q).mpr ⟨r, hr, h1, h2⟩
  obtain ⟨hwf2, hlay2, htot2, _, hused2, hfl2, _, hcnt2⟩ :=
    deallocate_spec hc hwf h.layout (by have := h.total_lt; omega) hlen hrange hp
  have hcnt := hcnt2 hocc
  have hle := count_true_le hwf
  have hnodup : live.Nodup := by
    refine List.Pairwise.imp_of_mem ?_ h.disjoint
    intro a b ha _ hab heq
    subst heq
    obtain ⟨h1, _, _⟩ := h.runs a ha
    exact hab a.start ⟨Nat.le_refl _, by omega, Nat.le_refl _, by omega⟩
  refine ⟨⟨hwf2, ?_⟩, hlay2, by rw [htot2]; exact h.total_lt, ?_,
    List.Pairwise.sublist (List.erase_sublist r live) h.disjoint, ?_⟩
  · have hu := h.inv.used_eq
    have hm := h.total_lt
    rw [hused2, size_sub_eq (by omega) (by omega)]
    omega
  · intro r2 hr2
    obtain ⟨h1, h2, h3⟩ := h.runs r2 (List.mem_of_mem_erase hr2)
    exact ⟨h1, by rw [htot2]; exact h2, h3⟩
  · intro q
    rw [hfl2 q]
    by_cases hq : r.start ≤ q ∧ q < r.start + r.len
    · rw [if_pos hq]
      constructor
      · intro hf; exact absurd hf (by simp)
      · rintro ⟨r2, hr2, h5⟩
        obtain ⟨hne, hmem⟩ := (hnodup.mem_erase_iff).mp hr2
        exact absurd ⟨h5.1, h5.2, hq.1, hq.2⟩
          (List.Pairwise.forall live_disjoint_symm h.disjoint hmem hr hne q)
    · rw [if_neg hq, h.occupied q]
      constructor
      · rintro ⟨r2, hr2, h5⟩
        have hne : r2 ≠ r := by
          intro heq; subst heq; exact hq h5
        exact ⟨r2, (List.mem_erase_of_ne hne).mpr hr2, h5⟩
      · rintro ⟨r2, hr2, h5⟩
        exact ⟨r2, List.mem_of_mem_erase hr2, h5⟩

theorem wellPaired_inv {c : Config} (hc : ConfigOk c) (hB : 1 ≤ c.BlockSize)
    (hfit : 2 * c.BlockSize < SIZE_MOD) {s : my_allocator} {live : List LiveRun}
    (h : WellPaired c s live) : LiveInv c s live := by
  induction h with
  | init => exact liveInv_init hB hfit
  | alloc n _ hn hf hs hal ih => exact liveInv_alloc ih hn hf hs hal
  | dealloc r _ hr ih => exact liveInv_dealloc hc ih r hr

/-- C20: in every state reachable from a freshly constructed allocator by a
well-paired sequence of calls (every `deallocate(p, n)` gets the pointer and
the length of a run returned by an earlier `allocate(n)`, `n > 0`, and not
deallocated since), `used_size` is the number of `true` flags,
`used_size <= total_size`, and a slot is occupied exactly when it lies in one
of the live runs. -/
theorem C20_well_paired_invariant (c : Config) (s : my_allocator) (live : List LiveRun)
    (hc : ConfigOk c) (hB : 1 ≤ c.BlockSize) (hfit : 2 * c.BlockSize < SIZE_MOD)
    (h : WellPaired c s live) :
    s.used_size = count_true s ∧ s.used_size ≤ s.total_size
      ∧ ∀ q, get_allocated c s q = true
          ↔ ∃ r ∈ live, r.start ≤ q ∧ q < r.start + r.len := by
  have hi := wellPaired_inv hc hB hfit h
  exact ⟨hi.inv.used_eq, by rw [hi.inv.used_eq]; exact count_true_le hi.inv.wf, hi.occupied⟩

theorem wellPaired_example :
    WellPaired cfg10 (deallocate cfg10 after7 4096 3)
      ([{ ptr := 4108, start := 3, len := 4 }, { ptr := 4096, start := 0, len := 3 }].erase
        { ptr := 4096, start := 0, len := 3 }) :=
  WellPaired.dealloc { ptr := 4096, start := 0, len := 3 }
    (WellPaired.alloc 4
      (WellPaired.alloc 3 WellPaired.init (by decide) (by unfold Fits; decide)
        (show allocate_start cfg10 (default_ctor cfg10) 3 = some (0, after3) by decide)
        allocate3_fresh)
      (by decide) (by unfold Fits; decide)
      (show allocate_start cfg10 after3 4 = some (3, after7) by decide)
      (show allocate cfg10 after3 4 = AllocResult.returned 4108 after7 by decide))
    (by decide)

/-- Witness of C20: the state after `p1 = allocate(3)`, `p2 = allocate(4)`,
`deallocate(p1, 3)` on a fresh allocator with `BlockSize = 10`; the run of
`p2` is the only live one. -/
theorem C20_well_paired_invariant_witness :
    (ConfigOk cfg10 ∧ 1 ≤ cfg10.BlockSize ∧ 2 * cfg10.BlockSize < SIZE_MOD
      ∧ WellPaired cfg10 (deallocate cfg10 after7 4096 3)
          ([{ ptr := 4108, start := 3, len := 4 },
            { ptr := 4096, start := 0, len := 3 }].erase
              { ptr := 4096, start := 0, len := 3 }))
    ∧ (deallocate cfg10 after7 4096 3).used_size = count_true (deallocate cfg10 after7 4096 3)
      ∧ (deallocate cfg10 after7 4096 3).used_size ≤ (deallocate cfg10 after7 4096 3).total_size
      ∧ ∀ q, get_allocated cfg10 (deallocate cfg10 after7 4096 3) q = true
          ↔ ∃ r ∈ ([{ ptr := 4108, start := 3, len := 4 },
                    { ptr := 4096, start := 0, len := 3 }].erase
                      { ptr := 4096, start := 0, len := 3 } : List LiveRun),
              r.start ≤ q ∧ q < r.start + r.len :=
  ⟨⟨cfg10_ok, by decide, by decide, wellPaired_example⟩,
    C20_well_paired_invariant cfg10 _ _ cfg10_ok (by decide) (by decide) wellPaired_example⟩

end FourthLab
